import Mathlib

/-!
Verification of the `rusty-primes` repository: a segmented sieve of
Eratosthenes (`src/sieve.rs`) built on a packed bitset (`src/bitset.rs`).

The Rust source is shallowly embedded below.  Machine words (`usize`) are
64 bits wide on the reference target; word values are modelled as `Nat`
kept below `2 ^ 64`, with an explicit `% 2 ^ 64` at the single place where
a shift can overflow the word width (`lastWordSetFor`).  Loops are modelled
by structurally recursive functions with an explicit fuel argument large
enough to never run out (proved where needed), so that every definition is
executable by the kernel.

The base prime list in the source is a `Vec<u32>` and the scan bound is
cast `as u32`; all primes, sentinels and bounds involved are at most
`int_sqrt n + 1`, which fits `u32` for every supported `n < 2 ^ 32`, so
those casts are value-preserving and the model keeps plain `Nat`.
-/

namespace RustyPrimes

/-- `BITS_PER_WORD` from `bitset.rs`: `usize` is 64 bits on the reference target. -/
def BITS_PER_WORD : Nat := 64

/-- One more than the largest word value; used to wrap shifts that overflow. -/
def WORD_MOD : Nat := 2 ^ BITS_PER_WORD

/-- The all-ones word, Rust `!0usize`. -/
def ALL_ONES : Nat := 2 ^ BITS_PER_WORD - 1

/-- `BIT_INDEX_MASK` from `bitset.rs` (= 63). -/
def BIT_INDEX_MASK : Nat := BITS_PER_WORD - 1

/-- `count_ones` on a word, by examining `fuel` low bits. -/
def popCountAux : Nat → Nat → Nat
  | 0, _ => 0
  | fuel + 1, w => w % 2 + popCountAux fuel (w / 2)

/-- Rust `usize::count_ones`: population count of a 64-bit word. -/
def popCount (w : Nat) : Nat := popCountAux BITS_PER_WORD w

/-- `WORD_INDEX_SHIFTS` from `bitset.rs`: `BIT_INDEX_MASK.count_ones()` (= 6). -/
def WORD_INDEX_SHIFTS : Nat := popCount BIT_INDEX_MASK

/-- `trailing_zeros` on a word, by examining `fuel` low bits. -/
def trailingZerosAux : Nat → Nat → Nat
  | 0, _ => 0
  | fuel + 1, w => if w % 2 = 1 then 0 else trailingZerosAux fuel (w / 2) + 1

/-- Rust `usize::trailing_zeros` (returns 64 on the zero word). -/
def trailingZeros (w : Nat) : Nat := trailingZerosAux BITS_PER_WORD w

/-- The `BitSet` struct from `bitset.rs`: storage words plus
`last_word_set`, "the last word with its used bits set". -/
structure BitSet where
  words : List Nat
  last_word_set : Nat
deriving Repr, DecidableEq

/-- The `last_word_set` value computed for a given length in `BitSet::new`
and `BitSet::truncate`: `!((!0 - 1) << ((len - 1) & BIT_INDEX_MASK))`,
with the 64-bit wrap of the shift made explicit. -/
def lastWordSetFor (len : Nat) : Nat :=
  let last_bit_i := (len - 1) &&& BIT_INDEX_MASK
  ALL_ONES ^^^ (((ALL_ONES - 1) <<< last_bit_i) % WORD_MOD)

/-- The word count computed for a given length in `BitSet::new` and
`BitSet::truncate`: `((len - 1) >> WORD_INDEX_SHIFTS) + 1`. -/
def wordsFor (len : Nat) : Nat := ((len - 1) >>> WORD_INDEX_SHIFTS) + 1

/-- `BitSet::new(len, initial_v)`.  The source asserts `len != 0`;
that precondition appears as a hypothesis on every theorem about it. -/
def BitSet.new (len : Nat) (initial_v : Bool) : BitSet :=
  let words := wordsFor len
  let last_word_set := lastWordSetFor len
  { words :=
      if initial_v then List.replicate (words - 1) ALL_ONES ++ [last_word_set]
      else List.replicate words 0,
    last_word_set := last_word_set }

/-- `BitSet::locate(i)`: word index and single-bit mask for bit `i`.
The source's `debug_assert!`s are the in-range precondition `i < len`,
carried as hypotheses on the theorems below. -/
def BitSet.locate (_s : BitSet) (i : Nat) : Nat × Nat :=
  (i >>> WORD_INDEX_SHIFTS, 1 <<< (i &&& BIT_INDEX_MASK))

/-- `BitSet::set(i)` (unchecked in the source). -/
def BitSet.set (s : BitSet) (i : Nat) : BitSet :=
  let (word_i, mask) := s.locate i
  { s with words := s.words.set word_i (s.words.getD word_i 0 ||| mask) }

/-- `BitSet::clear(i)` (unchecked in the source); `!mask` is the 64-bit
complement `ALL_ONES ^^^ mask`. -/
def BitSet.clear (s : BitSet) (i : Nat) : BitSet :=
  let (word_i, mask) := s.locate i
  { s with words := s.words.set word_i (s.words.getD word_i 0 &&& (ALL_ONES ^^^ mask)) }

/-- `BitSet::get(i)` (unchecked in the source). -/
def BitSet.get (s : BitSet) (i : Nat) : Bool :=
  let (word_i, mask) := s.locate i
  s.words.getD word_i 0 &&& mask != 0

/-- `BitSet::set_all`: fill every word with ones, then overwrite the last
word with `last_word_set`.  The source requires at least one word
(guaranteed by construction). -/
def BitSet.set_all (s : BitSet) : BitSet :=
  { s with words := List.replicate (s.words.length - 1) ALL_ONES ++ [s.last_word_set] }

/-- `BitSet::clear_all`: `self.words.fill(0)`. -/
def BitSet.clear_all (s : BitSet) : BitSet :=
  { s with words := List.replicate s.words.length 0 }

/-- `BitSet::truncate(len)` (unsafe in the source: `len` must be non-zero
and at most the current length; stale bits may remain set). -/
def BitSet.truncate (s : BitSet) (len : Nat) : BitSet :=
  { words := s.words.take (wordsFor len), last_word_set := lastWordSetFor len }

/-- `BitSet::count_ones`: sum of per-word population counts. -/
def BitSet.count_ones (s : BitSet) : Nat := (s.words.map popCount).sum

/-- One step of `IterOnes::next` from `bitset.rs`: `i` is the bit-index
base of the current word `w`, `ws` the words after it.  While `w` is zero,
advance to the next word (returning `none` at the end); otherwise emit
`i | w.trailing_zeros()` and clear the lowest set bit. -/
def iterNextGo : Nat → Nat → List Nat → Option (Nat × (Nat × Nat × List Nat))
  | i, w, [] =>
    if w = 0 then none
    else some (i ||| trailingZeros w, (i, w &&& (w - 1), []))
  | i, w, w2 :: rest =>
    if w = 0 then iterNextGo (i + (1 <<< WORD_INDEX_SHIFTS)) w2 rest
    else some (i ||| trailingZeros w, (i, w &&& (w - 1), w2 :: rest))

/-- Drive `iterNextGo` to exhaustion, collecting the emitted indices. -/
def iterOnesAux : Nat → Nat → Nat → List Nat → List Nat
  | 0, _, _, _ => []
  | fuel + 1, i, w, ws =>
    match iterNextGo i w ws with
    | none => []
    | some (res, (i2, w2, ws2)) => res :: iterOnesAux fuel i2 w2 ws2

/-- `BitSet::iter_ones`, as the full (finite) sequence the iterator
produces.  The iterator starts on the first word with `i = 0`; the fuel
`64 * words + 1` bounds the number of `next` calls (at most one emission
per set bit, plus the final `none`). -/
def BitSet.iter_ones (s : BitSet) : List Nat :=
  match s.words with
  | [] => []
  | w :: rest => iterOnesAux (BITS_PER_WORD * s.words.length + 1) 0 w rest

/-! ## `sieve.rs` -/

/-- The loop body of `int_sqrt`: Newton iteration
`x1 = (x0 + n / x0) >> 1`, repeated while `x1 < x0`.  Each iteration
strictly decreases `x0`, so fuel `x0` (a fortiori `n`) suffices. -/
def int_sqrt_go : Nat → Nat → Nat → Nat
  | 0, _, x0 => x0
  | fuel + 1, n, x0 =>
    let x1 := (x0 + n / x0) >>> 1
    if x1 < x0 then int_sqrt_go fuel n x1 else x0

/-- `int_sqrt` from `sieve.rs`: integer square root by Newton's method,
starting from `x0 = n >> 1`, returning `n` itself when `n >> 1 = 0`. -/
def int_sqrt (n : Nat) : Nat :=
  let x0 := n >>> 1
  if x0 ≠ 0 then int_sqrt_go n n x0 else n

/-- The inner marking loop of `Eratosthenes::gen_table`: clear `j`, step
by `i`, break once `j > n` (a do-while: the first clear is unconditional). -/
def markLoop : Nat → BitSet → Nat → Nat → Nat → BitSet
  | 0, table, _, _, _ => table
  | fuel + 1, table, j, i, n =>
    let table := table.clear j
    let j := j + i
    if j > n then table else markLoop fuel table j i n

/-- The outer loop of `Eratosthenes::gen_table`: for `i` from 2 while
`i² ≤ n`, if bit `i` is set clear all multiples of `i` from `i²`;
`i_squared` is maintained incrementally as `i_squared += (i << 1) | 1`. -/
def genLoop : Nat → BitSet → Nat → Nat → Nat → BitSet
  | 0, table, _, _, _ => table
  | fuel + 1, table, i, i_squared, n =>
    if i_squared ≤ n then
      let table := if table.get i then markLoop n table i_squared i n else table
      genLoop fuel table (i + 1) (i_squared + ((i <<< 1) ||| 1)) n
    else table

/-- `Eratosthenes::gen_table(n)`: length-`n+1` all-true bitset, bits 0 and
1 cleared, then sieved. -/
def Eratosthenes.gen_table (n : Nat) : BitSet :=
  let table := BitSet.new (n + 1) true
  let table := table.clear 0
  let table := table.clear 1
  genLoop (n + 1) table 2 4 n

/-- `<Eratosthenes as Sieve>::prime_pi(n)`. -/
def Eratosthenes.prime_pi (n : Nat) : Nat :=
  if n < 2 then 0 else (Eratosthenes.gen_table n).count_ones

/-- `collect_primes(seg, seg_len)`: the memory the scans read — the
ascending set-bit indices of `seg` followed by the sentinel `seg_len + 1`
written one slot past the Vec's logical length (which is
`seg.count_ones()`). -/
def collect_primes (seg : BitSet) (seg_len : Nat) : List Nat :=
  seg.iter_ones ++ [seg_len + 1]

/-- `for_each_max(primes, max, f)`: fold `f` over the leading elements
that are `≤ max`, stopping at the first element `> max`.  The source scans
with a raw pointer and would read past the end of the list were every
element `≤ max`; the sentinel prevents that (claim C5), and in that
impossible case the model simply returns the accumulated state. -/
def for_each_max {α : Type} : List Nat → Nat → (Nat → α → α) → α → α
  | [], _, _, acc => acc
  | p :: rest, max, f, acc =>
    if p > max then acc else for_each_max rest max f (f p acc)

/-- The loop of `mark_non_primes`: clear indices `i, i + p, …` while
`i < seg_len`.  Each step advances `i` by `p ≥ 1`, so fuel `seg_len`
suffices. -/
def markSegAux : Nat → BitSet → Nat → Nat → Nat → BitSet
  | 0, seg, _, _, _ => seg
  | fuel + 1, seg, i, p, seg_len =>
    if i < seg_len then markSegAux fuel (seg.clear i) (i + p) p seg_len else seg

/-- `mark_non_primes(seg, p, low, seg_len)`: clear every multiple of `p`
in the window `[low, low + seg_len)`, offset by `low`. -/
def mark_non_primes (seg : BitSet) (p low seg_len : Nat) : BitSet :=
  let p_mul := low / p * p
  let p_mul := if p_mul < low then p_mul + p else p_mul
  markSegAux seg_len seg (p_mul - low) p seg_len

/-- The window loop of `SegmentedEratosthenes::prime_pi`.  One iteration
processes the window `[low, high]`: mark composites using base primes
`≤ int_sqrt high`, add the surviving count, then advance (truncating the
buffer for a final short window).  Every iteration advances `low` by at
least 1, so fuel `n` suffices from the initial state. -/
def segLoop : Nat → Nat → BitSet → List Nat → Nat → Nat → Nat → Nat → Nat
  | 0, res, _, _, _, _, _, _ => res
  | fuel + 1, res, seg, primes, low, high, seg_len, n =>
    let max := int_sqrt high
    let seg := for_each_max primes max (fun p s => mark_non_primes s p low seg_len) seg
    let res := res + seg.count_ones
    let low := high + 1
    if low > n then res
    else if high + seg_len > n then
      let seg_len := n - low + 1
      let seg := (seg.truncate seg_len).set_all
      segLoop fuel res seg primes low n seg_len n
    else
      let seg := seg.set_all
      segLoop fuel res seg primes low (high + seg_len) seg_len n

/-- `<SegmentedEratosthenes as Sieve>::prime_pi(n)`.  `res` starts at
`primes.len()`, which `collect_primes` sets to `seg.count_ones()`. -/
def SegmentedEratosthenes.prime_pi (n : Nat) : Nat :=
  if n < 2 then 0 else
    let seg_len := int_sqrt n
    let seg := Eratosthenes.gen_table seg_len
    let primes := collect_primes seg seg_len
    let res := seg.count_ones
    let seg := seg.truncate seg_len
    let seg := seg.set_all
    segLoop n res seg primes (seg_len + 1) (seg_len <<< 1) seg_len n

/-! ## Derived definitions used by the specification layer -/

/-- The word a bit index lands in, with out-of-range reads giving 0 (the
source never reads out of range; see the in-range hypotheses below). -/
def wordAt (s : BitSet) (k : Nat) : Nat := s.words.getD k 0

/-- All storage words of a bitset fit in 64 bits. -/
def wordsBounded (s : BitSet) : Prop := ∀ w ∈ s.words, w < WORD_MOD

/-- The global indices of the set bits of word `w` placed at bit base `base`. -/
def bitIdx (base w : Nat) : List Nat :=
  ((List.range 64).filter (fun j => w.testBit j)).map (base + ·)

/-- The global indices of all set bits of a word list starting at `base`. -/
def onesList (base : Nat) : List Nat → List Nat
  | [] => []
  | w :: ws => bitIdx base w ++ onesList (base + 64) ws

/-- `int_sqrt`'s loop with the addition wrapped at the word width, as a
64-bit machine would compute it. -/
def int_sqrt_u64_go : Nat → Nat → Nat → Nat
  | 0, _, x0 => x0
  | fuel + 1, n, x0 =>
    let x1 := ((x0 + n / x0) % WORD_MOD) >>> 1
    if x1 < x0 then int_sqrt_u64_go fuel n x1 else x0

/-- `int_sqrt` with `usize` (64-bit, wrapping) arithmetic. -/
def int_sqrt_u64 (n : Nat) : Nat :=
  let x0 := n >>> 1
  if x0 ≠ 0 then int_sqrt_u64_go n n x0 else n

/-- The spec's tail invariant: every bit at logical index at least `len`
reads clear. -/
def tailClear (s : BitSet) (len : Nat) : Prop := ∀ i, len ≤ i → s.get i = false

/-- Set every index of `l` in turn, via `BitSet::set`. -/
def setMany (s : BitSet) (l : List Nat) : BitSet := l.foldl BitSet.set s

/-- The number of primes up to and including `n`, the mathematical spec of
`prime_pi`. -/
def primeCount (n : Nat) : Nat := Nat.count Nat.Prime (n + 1)

/-- The `(low, high, seg_len)` states reachable at the head of the window
loop of `SegmentedEratosthenes::prime_pi` for a given `n` and base length
`S`, following the loop's own transitions. -/
inductive Reach (n S : Nat) : Nat → Nat → Nat → Prop where
  | init : Reach n S (S + 1) (S <<< 1) S
  | step_full {low high seg_len : Nat} : Reach n S low high seg_len →
      high + 1 ≤ n → high + seg_len ≤ n →
      Reach n S (high + 1) (high + seg_len) seg_len
  | step_trunc {low high seg_len : Nat} : Reach n S low high seg_len →
      high + 1 ≤ n → n < high + seg_len →
      Reach n S (high + 1) n (n - (high + 1) + 1)

/-- A sentinel-bounded scan of `for_each_max` stops inside the list: some
element exceeds the bound, so the pointer never advances past the end. -/
def scanStops : List Nat → Nat → Bool
  | [], _ => false
  | p :: rest, max => if p > max then true else scanStops rest max

/-- The sieve invariant at outer stage `i`: `j` has no prime factor
`d < i` with `d * d ≤ j` (no witness below the current stage has struck it). -/
def safeAt (i j : Nat) : Prop := ∀ d, d < i → d.Prime → d ∣ j → j < d * d

instance (i j : Nat) : Decidable (safeAt i j) :=
  inferInstanceAs (Decidable (∀ d, d < i → d.Prime → d ∣ j → j < d * d))

/-! ## Theorems -/

/-! ## Arithmetic of the word-level primitives -/

theorem and_mask_eq (i : Nat) : i &&& BIT_INDEX_MASK = i % 64 := by
  have h := Nat.and_pow_two_sub_one_eq_mod i 6
  norm_num at h
  exact h

theorem shr_shifts_eq (i : Nat) : i >>> WORD_INDEX_SHIFTS = i / 64 := by
  have hw : WORD_INDEX_SHIFTS = 6 := by decide
  rw [hw, Nat.shiftRight_eq_div_pow]

theorem one_shl_eq (k : Nat) : (1 : Nat) <<< k = 2 ^ k := by
  rw [Nat.shiftLeft_eq, Nat.one_mul]

theorem ALL_ONES_lt : ALL_ONES < WORD_MOD := by decide

theorem testBit_ALL_ONES (m : Nat) : ALL_ONES.testBit m = decide (m < 64) := by
  have h : ALL_ONES = 2 ^ 64 - 1 := by decide
  rw [h, Nat.testBit_two_pow_sub_one]

theorem testBit_ALL_ONES_sub_one (m : Nat) :
    (ALL_ONES - 1).testBit m = (decide (1 ≤ m) && decide (m < 64)) := by
  have h2 : (ALL_ONES - 1) = (2 ^ 63 - 1) <<< 1 := by decide
  rw [h2, Nat.testBit_shiftLeft, Nat.testBit_two_pow_sub_one]
  by_cases h : 1 ≤ m
  · simp only [decide_eq_true h, Bool.true_and, ge_iff_le]
    rw [decide_eq_decide]
    omega
  · have h0 : m = 0 := by omega
    subst h0
    simp

/-- Closed form of `last_word_set`: the low `((len - 1) % 64) + 1` bits. -/
theorem lastWordSetFor_eq (len : Nat) :
    lastWordSetFor len = 2 ^ ((len - 1) % 64 + 1) - 1 := by
  apply Nat.eq_of_testBit_eq
  intro j
  have hblt : (len - 1) % 64 < 64 := Nat.mod_lt _ (by norm_num)
  unfold lastWordSetFor
  simp only [and_mask_eq, WORD_MOD, BITS_PER_WORD, Nat.testBit_xor,
    Nat.testBit_mod_two_pow, Nat.testBit_shiftLeft, testBit_ALL_ONES_sub_one,
    testBit_ALL_ONES, Nat.testBit_two_pow_sub_one]
  by_cases h64 : j < 64
  · by_cases hle : j < (len - 1) % 64 + 1
    · have h1 : ¬ 1 ≤ j - (len - 1) % 64 := by omega
      simp [h64, hle, h1]
    · have ha : (len - 1) % 64 ≤ j := by omega
      have hb1 : 1 ≤ j - (len - 1) % 64 := by omega
      have hb2 : j - (len - 1) % 64 < 64 := by omega
      simp [h64, hle, ha, hb1, hb2]
  · have hn : ¬ j < (len - 1) % 64 + 1 := by omega
    simp [h64, hn]

theorem lastWordSetFor_lt (len : Nat) : lastWordSetFor len < WORD_MOD := by
  rw [lastWordSetFor_eq]
  have h : (len - 1) % 64 + 1 ≤ 64 := by
    have := Nat.mod_lt (len - 1) (y := 64) (by norm_num)
    omega
  calc 2 ^ ((len - 1) % 64 + 1) - 1 < 2 ^ ((len - 1) % 64 + 1) :=
        Nat.sub_lt (by positivity) (by norm_num)
    _ ≤ 2 ^ 64 := Nat.pow_le_pow_right (by norm_num) h

theorem testBit_lastWordSetFor (len j : Nat) :
    (lastWordSetFor len).testBit j = decide (j ≤ (len - 1) % 64) := by
  rw [lastWordSetFor_eq, Nat.testBit_two_pow_sub_one]
  simp [Nat.lt_succ_iff]

theorem BitSet.get_eq_testBit (s : BitSet) (i : Nat) :
    s.get i = (wordAt s (i / 64)).testBit (i % 64) := by
  unfold BitSet.get BitSet.locate wordAt
  simp only [and_mask_eq, shr_shifts_eq, one_shl_eq, Nat.and_two_pow]
  rcases h : (s.words.getD (i / 64) 0).testBit (i % 64) with _ | _
  · simp [h]
  · simp [h, Nat.pow_eq_zero]

theorem wordAt_eq_zero (s : BitSet) {k : Nat} (h : s.words.length ≤ k) :
    wordAt s k = 0 := by
  unfold wordAt
  rw [List.getD_eq_getElem?_getD, List.getElem?_eq_none (by simpa)]
  rfl

theorem getD_replicate_append (n a b k : Nat) :
    (List.replicate n a ++ [b]).getD k 0 =
      if k < n then a else if k = n then b else 0 := by
  rw [List.getD_eq_getElem?_getD, List.getElem?_append]
  by_cases h : k < n
  · simp [h]
  · simp only [List.length_replicate, if_neg h]
    by_cases he : k = n
    · subst he
      simp
    · have h1 : 1 ≤ k - n := by omega
      rw [List.getElem?_eq_none (by simpa)]
      simp [h, he]

/-! ### `BitSet.new` -/

theorem BitSet.words_length_new (len : Nat) (v : Bool) :
    (BitSet.new len v).words.length = wordsFor len := by
  cases v <;> simp [BitSet.new, wordsFor]

theorem BitSet.last_word_set_new (len : Nat) (v : Bool) :
    (BitSet.new len v).last_word_set = lastWordSetFor len := rfl

theorem BitSet.wordsBounded_new (len : Nat) (v : Bool) :
    wordsBounded (BitSet.new len v) := by
  intro w hw
  cases v
  · simp [BitSet.new] at hw
    obtain ⟨-, rfl⟩ := hw
    decide
  · simp [BitSet.new] at hw
    rcases hw with ⟨-, rfl⟩ | rfl
    · exact ALL_ONES_lt
    · exact lastWordSetFor_lt len

theorem wordsFor_le_iff (len k : Nat) (h : 0 < len) :
    wordsFor len ≤ k ↔ len ≤ 64 * k := by
  unfold wordsFor
  rw [shr_shifts_eq]
  omega

theorem BitSet.get_new (len : Nat) (h : 0 < len) (v : Bool) (i : Nat) :
    (BitSet.new len v).get i = (v && decide (i < len)) := by
  rw [BitSet.get_eq_testBit]
  cases v
  · have hz : wordAt (BitSet.new len false) (i / 64) = 0 := by
      unfold wordAt BitSet.new
      simp [List.getD_eq_getElem?_getD, List.getElem?_replicate]
      split <;> rfl
    rw [hz]
    simp
  · show (wordAt (BitSet.new len true) (i / 64)).testBit (i % 64) = decide (i < len)
    have hw : wordAt (BitSet.new len true) (i / 64) =
        if i / 64 < wordsFor len - 1 then ALL_ONES
        else if i / 64 = wordsFor len - 1 then lastWordSetFor len else 0 := by
      unfold wordAt BitSet.new
      simpa using getD_replicate_append (wordsFor len - 1) ALL_ONES (lastWordSetFor len) (i / 64)
    have hWF : wordsFor len = (len - 1) / 64 + 1 := by
      unfold wordsFor
      rw [shr_shifts_eq]
    rw [hw, hWF]
    by_cases h1 : i / 64 < (len - 1) / 64 + 1 - 1
    · rw [if_pos h1, testBit_ALL_ONES]
      have : i % 64 < 64 := Nat.mod_lt _ (by norm_num)
      have : i < len := by omega
      simp [*]
    · rw [if_neg h1]
      by_cases h2 : i / 64 = (len - 1) / 64 + 1 - 1
      · rw [if_pos h2, testBit_lastWordSetFor]
        rw [decide_eq_decide]
        omega
      · rw [if_neg h2]
        have : ¬ i < len := by omega
        simp [*]

/-! ### `BitSet.set` and `BitSet.clear` -/

theorem BitSet.set_words (s : BitSet) (j : Nat) :
    (s.set j).words =
      s.words.set (j / 64) (s.words.getD (j / 64) 0 ||| 2 ^ (j % 64)) := by
  unfold BitSet.set BitSet.locate
  rw [shr_shifts_eq, and_mask_eq, one_shl_eq]

theorem BitSet.set_last_word_set (s : BitSet) (j : Nat) :
    (s.set j).last_word_set = s.last_word_set := rfl

theorem BitSet.set_words_length (s : BitSet) (j : Nat) :
    (s.set j).words.length = s.words.length := by
  rw [BitSet.set_words, List.length_set]

theorem BitSet.clear_words (s : BitSet) (j : Nat) :
    (s.clear j).words =
      s.words.set (j / 64) (s.words.getD (j / 64) 0 &&& (ALL_ONES ^^^ 2 ^ (j % 64))) := by
  unfold BitSet.clear BitSet.locate
  rw [shr_shifts_eq, and_mask_eq, one_shl_eq]

theorem BitSet.clear_last_word_set (s : BitSet) (j : Nat) :
    (s.clear j).last_word_set = s.last_word_set := rfl

theorem BitSet.clear_words_length (s : BitSet) (j : Nat) :
    (s.clear j).words.length = s.words.length := by
  rw [BitSet.clear_words, List.length_set]

theorem div64_mod64_ext {i j : Nat} (hd : i / 64 = j / 64) (hm : i % 64 = j % 64) :
    i = j := by
  omega

theorem BitSet.get_set (s : BitSet) {j : Nat} (hj : j / 64 < s.words.length) (i : Nat) :
    (s.set j).get i = (decide (i = j) || s.get i) := by
  rw [BitSet.get_eq_testBit, BitSet.get_eq_testBit]
  have hwa : wordAt (s.set j) (i / 64) =
      if j / 64 = i / 64 then wordAt s (i / 64) ||| 2 ^ (j % 64)
      else wordAt s (i / 64) := by
    unfold wordAt
    rw [BitSet.set_words]
    rw [List.getD_eq_getElem?_getD, List.getD_eq_getElem?_getD, List.getElem?_set]
    by_cases h : j / 64 = i / 64
    · rw [if_pos h, if_pos (by omega), if_pos h]
      rw [← h, List.getD_eq_getElem?_getD]
      rfl
    · rw [if_neg h, if_neg h]
      exact (List.getD_eq_getElem?_getD _ _ _).symm
  rw [hwa]
  by_cases h : j / 64 = i / 64
  · rw [if_pos h, Nat.testBit_or, Nat.testBit_two_pow]
    by_cases hm : j % 64 = i % 64
    · have : i = j := div64_mod64_ext h.symm hm.symm
      simp [this, hm]
    · have : ¬ i = j := fun he => hm (by rw [he])
      simp [this, hm, Bool.or_comm]
  · rw [if_neg h]
    have : ¬ i = j := fun he => h (by rw [he])
    simp [this]

theorem BitSet.get_clear (s : BitSet) {j : Nat} (hj : j / 64 < s.words.length) (i : Nat) :
    (s.clear j).get i = (!decide (i = j) && s.get i) := by
  rw [BitSet.get_eq_testBit, BitSet.get_eq_testBit]
  have hwa : wordAt (s.clear j) (i / 64) =
      if j / 64 = i / 64 then wordAt s (i / 64) &&& (ALL_ONES ^^^ 2 ^ (j % 64))
      else wordAt s (i / 64) := by
    unfold wordAt
    rw [BitSet.clear_words]
    rw [List.getD_eq_getElem?_getD, List.getD_eq_getElem?_getD, List.getElem?_set]
    by_cases h : j / 64 = i / 64
    · rw [if_pos h, if_pos (by omega), if_pos h]
      rw [← h, List.getD_eq_getElem?_getD]
      rfl
    · rw [if_neg h, if_neg h]
      exact (List.getD_eq_getElem?_getD _ _ _).symm
  rw [hwa]
  have hmlt : i % 64 < 64 := Nat.mod_lt _ (by norm_num)
  by_cases h : j / 64 = i / 64
  · rw [if_pos h, Nat.testBit_and, Nat.testBit_xor, testBit_ALL_ONES, Nat.testBit_two_pow]
    by_cases hm : j % 64 = i % 64
    · have : i = j := div64_mod64_ext h.symm hm.symm
      simp [this, hm, hmlt]
    · have : ¬ i = j := fun he => hm (by rw [he])
      simp [this, hm, hmlt, Bool.and_comm]
  · rw [if_neg h]
    have : ¬ i = j := fun he => h (by rw [he])
    simp [this]

theorem BitSet.wordsBounded_set (s : BitSet) (j : Nat) (hs : wordsBounded s)
    (hj : j % 64 < 64) : wordsBounded (s.set j) := by
  intro w hw
  rw [BitSet.set_words] at hw
  rcases List.mem_or_eq_of_mem_set hw with h | h
  · exact hs w h
  · subst h
    apply Nat.or_lt_two_pow
    · by_cases hl : j / 64 < s.words.length
      · have hg : s.words.getD (j / 64) 0 = s.words[j / 64] := by
          rw [List.getD_eq_getElem?_getD, List.getElem?_eq_getElem hl]
          rfl
        rw [hg]
        exact hs _ (List.getElem_mem hl)
      · rw [show s.words.getD (j / 64) 0 = wordAt s (j / 64) from rfl,
          wordAt_eq_zero s (by omega)]
        decide
    · exact Nat.pow_lt_pow_right (by norm_num) hj

theorem BitSet.wordsBounded_clear (s : BitSet) (j : Nat) (hs : wordsBounded s) :
    wordsBounded (s.clear j) := by
  intro w hw
  rw [BitSet.clear_words] at hw
  rcases List.mem_or_eq_of_mem_set hw with h | h
  · exact hs w h
  · subst h
    calc s.words.getD (j / 64) 0 &&& (ALL_ONES ^^^ 2 ^ (j % 64)) ≤ ALL_ONES ^^^ 2 ^ (j % 64) :=
          Nat.and_le_right
      _ < WORD_MOD := Nat.xor_lt_two_pow ALL_ONES_lt
          (Nat.pow_lt_pow_right (by norm_num) (Nat.mod_lt _ (by norm_num)))

/-! ### `BitSet.set_all`, `BitSet.clear_all`, `BitSet.truncate` -/

theorem BitSet.get_set_all (s : BitSet) {len : Nat} (h0 : 0 < len)
    (hlen : s.words.length = wordsFor len)
    (hlast : s.last_word_set = lastWordSetFor len) (i : Nat) :
    (s.set_all).get i = decide (i < len) := by
  have h := BitSet.get_new len h0 true i
  rw [Bool.true_and] at h
  rw [← h, BitSet.get_eq_testBit, BitSet.get_eq_testBit]
  suffices hs : wordAt s.set_all (i / 64) = wordAt (BitSet.new len true) (i / 64) by
    rw [hs]
  unfold wordAt BitSet.set_all BitSet.new
  simp [hlast, hlen]

theorem BitSet.set_all_words_length (s : BitSet) (h : s.words ≠ []) :
    (s.set_all).words.length = s.words.length := by
  unfold BitSet.set_all
  simp
  have := List.length_pos.mpr h
  omega

theorem BitSet.set_all_last_word_set (s : BitSet) :
    (s.set_all).last_word_set = s.last_word_set := rfl

theorem BitSet.wordsBounded_set_all (s : BitSet) {len : Nat}
    (hlast : s.last_word_set = lastWordSetFor len) : wordsBounded (s.set_all) := by
  intro w hw
  unfold BitSet.set_all at hw
  simp at hw
  rcases hw with hw | hw
  · rw [hw.2]
    exact ALL_ONES_lt
  · rw [hw, hlast]
    exact lastWordSetFor_lt len

theorem BitSet.get_clear_all (s : BitSet) (i : Nat) :
    (s.clear_all).get i = false := by
  rw [BitSet.get_eq_testBit]
  have hz : wordAt s.clear_all (i / 64) = 0 := by
    unfold wordAt BitSet.clear_all
    simp [List.getD_eq_getElem?_getD, List.getElem?_replicate]
    split <;> rfl
  rw [hz]
  simp

theorem BitSet.truncate_words (s : BitSet) (len : Nat) :
    (s.truncate len).words = s.words.take (wordsFor len) := rfl

theorem BitSet.truncate_last_word_set (s : BitSet) (len : Nat) :
    (s.truncate len).last_word_set = lastWordSetFor len := rfl

theorem BitSet.truncate_words_length (s : BitSet) {len : Nat}
    (h : wordsFor len ≤ s.words.length) :
    (s.truncate len).words.length = wordsFor len := by
  rw [BitSet.truncate_words, List.length_take]
  omega

theorem BitSet.wordsBounded_truncate (s : BitSet) (len : Nat) (hs : wordsBounded s) :
    wordsBounded (s.truncate len) := by
  intro w hw
  exact hs w (List.mem_of_mem_take hw)

theorem wordsFor_mono {a b : Nat} (h : a ≤ b) : wordsFor a ≤ wordsFor b := by
  unfold wordsFor
  rw [shr_shifts_eq, shr_shifts_eq]
  omega

/-! ### Population count and the index list of set bits -/

theorem popCountAux_eq (fuel : Nat) :
    ∀ w, w < 2 ^ fuel →
      popCountAux fuel w = ((List.range fuel).filter (fun j => w.testBit j)).length := by
  induction fuel with
  | zero =>
    intro w hw
    interval_cases w
    rfl
  | succ fuel ih =>
    intro w hw
    have hw2 : w / 2 < 2 ^ fuel := by
      rw [Nat.pow_succ] at hw
      omega
    show w % 2 + popCountAux fuel (w / 2) = _
    rw [ih (w / 2) hw2, List.range_succ_eq_map, List.filter_cons, List.filter_map]
    have hcomp : ((fun j => w.testBit j) ∘ Nat.succ) = fun j => (w / 2).testBit j := by
      funext j
      show w.testBit (j + 1) = (w / 2).testBit j
      rw [Nat.testBit_add_one]
    rw [hcomp]
    rcases Nat.mod_two_eq_zero_or_one w with h2 | h2
    · have ht : w.testBit 0 = false := by simp [Nat.testBit_zero, h2]
      rw [ht, h2]
      simp
    · have ht : w.testBit 0 = true := by simp [Nat.testBit_zero, h2]
      rw [ht, h2]
      simp [Nat.add_comm]

theorem popCount_eq (w : Nat) (hw : w < WORD_MOD) :
    popCount w = ((List.range 64).filter (fun j => w.testBit j)).length :=
  popCountAux_eq 64 w hw

theorem bitIdx_length (base w : Nat) :
    (bitIdx base w).length = ((List.range 64).filter (fun j => w.testBit j)).length := by
  unfold bitIdx
  rw [List.length_map]

/-- The set-bit index list of a word list is the filtered index range,
shifted by the base. -/
theorem onesList_eq_filter (ws : List Nat) :
    ∀ base, onesList base ws =
      ((List.range (64 * ws.length)).filter
        (fun i => (ws.getD (i / 64) 0).testBit (i % 64))).map (base + ·) := by
  induction ws with
  | nil => intro base; simp [onesList]
  | cons w ws ih =>
    intro base
    have h1 : bitIdx base w =
        ((List.range 64).filter
          (fun i => ((w :: ws).getD (i / 64) 0).testBit (i % 64))).map (base + ·) := by
      unfold bitIdx
      congr 1
    have h2 : (((List.range (64 * ws.length)).map (64 + ·)).filter
          (fun i => ((w :: ws).getD (i / 64) 0).testBit (i % 64))).map (base + ·) =
        onesList (base + 64) ws := by
      rw [List.filter_map, List.map_map, ih (base + 64)]
      have hcomp : ((fun i => ((w :: ws).getD (i / 64) 0).testBit (i % 64)) ∘ (64 + ·)) =
          fun i => (ws.getD (i / 64) 0).testBit (i % 64) := by
        funext a
        show ((w :: ws).getD ((64 + a) / 64) 0).testBit ((64 + a) % 64) = _
        have hd : (64 + a) / 64 = a / 64 + 1 := by omega
        have hm : (64 + a) % 64 = a % 64 := by omega
        rw [hd, hm]
        rfl
      rw [hcomp]
      congr 1
      funext a
      show base + (64 + a) = base + 64 + a
      omega
    show bitIdx base w ++ onesList (base + 64) ws = _
    have hsplit : 64 * (w :: ws).length = 64 + 64 * ws.length := by
      simp [List.length_cons]
      ring
    rw [hsplit, List.range_add, List.filter_append, List.map_append, ← h1, h2]

theorem onesList_zero_eq_filter (ws : List Nat) :
    onesList 0 ws = (List.range (64 * ws.length)).filter
      (fun i => (ws.getD (i / 64) 0).testBit (i % 64)) := by
  rw [onesList_eq_filter ws 0]
  have : ((0 : Nat) + ·) = fun a : Nat => a := by
    funext a
    omega
  rw [this, List.map_id']

/-- `count_ones` counts exactly the in-capacity indices whose `get` is true. -/
theorem BitSet.count_ones_spec (s : BitSet) (hb : wordsBounded s) :
    s.count_ones = ((List.range (64 * s.words.length)).filter (fun i => s.get i)).length := by
  have hfc : (List.range (64 * s.words.length)).filter (fun i => s.get i) =
      (List.range (64 * s.words.length)).filter
        (fun i => (s.words.getD (i / 64) 0).testBit (i % 64)) := by
    apply List.filter_congr
    intro a _
    rw [BitSet.get_eq_testBit]
    rfl
  rw [hfc, ← onesList_zero_eq_filter]
  unfold BitSet.count_ones
  have : ∀ (ws : List Nat) (base : Nat), (∀ w ∈ ws, w < WORD_MOD) →
      (ws.map popCount).sum = (onesList base ws).length := by
    intro ws
    induction ws with
    | nil => intro base _; rfl
    | cons w ws ih =>
      intro base hball
      show popCount w + (ws.map popCount).sum = (bitIdx base w ++ onesList (base + 64) ws).length
      rw [List.length_append, bitIdx_length, ih (base + 64) (fun u hu => hball u (List.mem_cons_of_mem _ hu)),
        popCount_eq w (hball w (List.mem_cons_self w ws))]
  exact this s.words 0 hb

/-- Dropping range entries past a point where the predicate is always false. -/
theorem filter_range_cut (p : Nat → Bool) (m N : Nat) (hm : m ≤ N)
    (hp : ∀ i, m ≤ i → p i = false) :
    (List.range N).filter p = (List.range m).filter p := by
  induction N with
  | zero =>
    have : m = 0 := by omega
    rw [this]
  | succ N ih =>
    by_cases h : m = N + 1
    · rw [h]
    · have hm2 : m ≤ N := by omega
      rw [List.range_succ, List.filter_append, ih hm2]
      have : p N = false := hp N hm2
      simp [this]

/-! ### `trailing_zeros` and clearing the lowest set bit -/

theorem trailingZerosAux_spec (fuel : Nat) :
    ∀ w, w ≠ 0 → w < 2 ^ fuel →
      trailingZerosAux fuel w < fuel ∧
      w.testBit (trailingZerosAux fuel w) = true ∧
      ∀ j, j < trailingZerosAux fuel w → w.testBit j = false := by
  induction fuel with
  | zero =>
    intro w hw hlt
    omega
  | succ fuel ih =>
    intro w hw hlt
    by_cases h2 : w % 2 = 1
    · have htz : trailingZerosAux (fuel + 1) w = 0 := by
        simp [trailingZerosAux, h2]
      rw [htz]
      refine ⟨by omega, by simp [Nat.testBit_zero, h2], fun j hj => by omega⟩
    · have h0 : w % 2 = 0 := by omega
      have htz : trailingZerosAux (fuel + 1) w = trailingZerosAux fuel (w / 2) + 1 := by
        simp [trailingZerosAux, h2]
      have hwhalf : w / 2 ≠ 0 := by omega
      have hlt2 : w / 2 < 2 ^ fuel := by
        rw [Nat.pow_succ] at hlt
        omega
      obtain ⟨ih1, ih2, ih3⟩ := ih (w / 2) hwhalf hlt2
      rw [htz]
      refine ⟨by omega, ?_, ?_⟩
      · rw [Nat.testBit_add_one]
        exact ih2
      · intro j hj
        match j with
        | 0 => simp [Nat.testBit_zero, h0]
        | j + 1 =>
          rw [Nat.testBit_add_one]
          exact ih3 j (by omega)

theorem trailingZeros_lt (w : Nat) (hw : w ≠ 0) (hlt : w < WORD_MOD) :
    trailingZeros w < 64 :=
  (trailingZerosAux_spec 64 w hw hlt).1

theorem testBit_trailingZeros (w : Nat) (hw : w ≠ 0) (hlt : w < WORD_MOD) :
    w.testBit (trailingZeros w) = true :=
  (trailingZerosAux_spec 64 w hw hlt).2.1

theorem testBit_lt_trailingZeros (w : Nat) (hw : w ≠ 0) (hlt : w < WORD_MOD) :
    ∀ j, j < trailingZeros w → w.testBit j = false :=
  (trailingZerosAux_spec 64 w hw hlt).2.2

/-- Bits of `w & (w - 1)`: those of `w` except the lowest set bit. -/
theorem and_pred_testBit (fuel : Nat) :
    ∀ w, w ≠ 0 → w < 2 ^ fuel → ∀ j,
      (w &&& (w - 1)).testBit j =
        (w.testBit j && !decide (j = trailingZerosAux fuel w)) := by
  induction fuel with
  | zero =>
    intro w hw hlt
    omega
  | succ fuel ih =>
    intro w hw hlt j
    rw [Nat.testBit_and]
    by_cases h2 : w % 2 = 1
    · have htz : trailingZerosAux (fuel + 1) w = 0 := by
        simp [trailingZerosAux, h2]
      rw [htz]
      match j with
      | 0 =>
        have hp : (w - 1).testBit 0 = false := by
          simp only [Nat.testBit_zero]
          simp
          omega
        simp [hp]
      | j + 1 =>
        have heq : (w - 1) / 2 = w / 2 := by omega
        rw [Nat.testBit_add_one, Nat.testBit_add_one, heq]
        simp
    · have h0 : w % 2 = 0 := by omega
      have htz : trailingZerosAux (fuel + 1) w = trailingZerosAux fuel (w / 2) + 1 := by
        simp [trailingZerosAux, h2]
      have hwhalf : w / 2 ≠ 0 := by omega
      have hlt2 : w / 2 < 2 ^ fuel := by
        rw [Nat.pow_succ] at hlt
        omega
      rw [htz]
      match j with
      | 0 =>
        have hw0 : w.testBit 0 = false := by simp [Nat.testBit_zero, h0]
        simp [hw0]
      | j + 1 =>
        have heq : (w - 1) / 2 = w / 2 - 1 := by omega
        rw [Nat.testBit_add_one, Nat.testBit_add_one, heq]
        have hrec := ih (w / 2) hwhalf hlt2 j
        rw [Nat.testBit_and] at hrec
        rw [hrec]
        have hd : decide (j = trailingZerosAux fuel (w / 2)) =
            decide (j + 1 = trailingZerosAux fuel (w / 2) + 1) := by
          rw [decide_eq_decide]
          omega
        rw [hd]

theorem and_pred_testBit64 (w : Nat) (hw : w ≠ 0) (hlt : w < WORD_MOD) (j : Nat) :
    (w &&& (w - 1)).testBit j = (w.testBit j && !decide (j = trailingZeros w)) :=
  and_pred_testBit 64 w hw hlt j

theorem popCount_zero : popCount 0 = 0 := rfl

theorem popCountAux_le (fuel : Nat) : ∀ w, popCountAux fuel w ≤ fuel := by
  induction fuel with
  | zero => intro w; exact Nat.le_refl 0
  | succ fuel ih =>
    intro w
    show w % 2 + popCountAux fuel (w / 2) ≤ fuel + 1
    have := ih (w / 2)
    omega

theorem popCount_le (w : Nat) : popCount w ≤ 64 := popCountAux_le 64 w

theorem popCount_pos (w : Nat) (hw : w ≠ 0) (hlt : w < WORD_MOD) :
    0 < popCount w := by
  rw [popCount_eq w hlt]
  have hmem : trailingZeros w ∈ (List.range 64).filter (fun j => w.testBit j) := by
    rw [List.mem_filter]
    exact ⟨List.mem_range.mpr (trailingZeros_lt w hw hlt), testBit_trailingZeros w hw hlt⟩
  have := List.ne_nil_of_mem hmem
  rcases h : (List.range 64).filter (fun j => w.testBit j) with _ | ⟨a, l⟩
  · exact absurd h this
  · simp

theorem popCount_and_pred (w : Nat) (hw : w ≠ 0) (hlt : w < WORD_MOD) :
    popCount (w &&& (w - 1)) = popCount w - 1 := by
  have hble : w &&& (w - 1) < WORD_MOD := Nat.lt_of_le_of_lt Nat.and_le_left hlt
  rw [popCount_eq _ hble, popCount_eq _ hlt]
  have h1 : (List.range 64).filter (fun j => (w &&& (w - 1)).testBit j) =
      (List.range 64).filter (fun j => w.testBit j && !decide (j = trailingZeros w)) := by
    apply List.filter_congr
    intro a _
    rw [and_pred_testBit64 w hw hlt a]
  have h2 : (List.range 64).filter (fun j => w.testBit j && !decide (j = trailingZeros w)) =
      ((List.range 64).filter (fun j => w.testBit j)).filter (fun j => !decide (j = trailingZeros w)) := by
    rw [List.filter_filter]
    apply List.filter_congr
    intro a _
    rw [Bool.and_comm]
  have h3 : ((List.range 64).filter (fun j => w.testBit j)).filter
        (fun j => !decide (j = trailingZeros w)) =
      ((List.range 64).filter (fun j => w.testBit j)).erase (trailingZeros w) := by
    have hnd : ((List.range 64).filter (fun j => w.testBit j)).Nodup :=
      (List.nodup_range 64).filter _
    rw [hnd.erase_eq_filter]
    apply List.filter_congr
    intro a _
    by_cases h : a = trailingZeros w <;> simp [h]
  have hmem : trailingZeros w ∈ (List.range 64).filter (fun j => w.testBit j) := by
    rw [List.mem_filter]
    exact ⟨List.mem_range.mpr (trailingZeros_lt w hw hlt), testBit_trailingZeros w hw hlt⟩
  rw [h1, h2, h3, List.length_erase_of_mem hmem]

/-! ### `iter_ones` produces the ascending set-bit index list -/

theorem filter_range_eq_cons (p : Nat → Bool) (t N : Nat) (ht : t < N)
    (hpt : p t = true) (hlow : ∀ j, j < t → p j = false) :
    (List.range N).filter p =
      t :: (List.range N).filter (fun j => p j && !decide (j = t)) := by
  obtain ⟨k, rfl⟩ : ∃ k, N = t + (k + 1) := ⟨N - t - 1, by omega⟩
  rw [List.range_add, List.filter_append, List.filter_append]
  have h1 : (List.range t).filter p = [] := by
    rw [List.filter_eq_nil_iff]
    intro a ha
    simp [hlow a (List.mem_range.mp ha)]
  have h1m : (List.range t).filter (fun j => p j && !decide (j = t)) = [] := by
    rw [List.filter_eq_nil_iff]
    intro a ha
    simp [hlow a (List.mem_range.mp ha)]
  rw [h1, h1m, List.nil_append, List.nil_append, List.range_succ_eq_map,
    List.map_cons, List.filter_cons, List.filter_cons]
  have he : t + 0 = t := by omega
  rw [he, hpt]
  have hd : (decide (t = t)) = true := by simp
  rw [hd]
  simp only [Bool.not_true, Bool.and_false, ↓reduceIte]
  congr 1
  apply List.filter_congr
  intro a ha
  obtain ⟨x, hx, rfl⟩ := List.mem_map.mp ha
  obtain ⟨y, -, rfl⟩ := List.mem_map.mp hx
  have hne : decide (t + Nat.succ y = t) = false := by
    rw [decide_eq_false_iff_not]
    omega
  simp [hne]

/-- Removing the lowest set bit removes the head of the set-bit list. -/
theorem bitIdx_cons_tz (i w : Nat) (hw : w ≠ 0) (hlt : w < WORD_MOD) :
    bitIdx i w = (i + trailingZeros w) :: bitIdx i (w &&& (w - 1)) := by
  unfold bitIdx
  have h1 : (List.range 64).filter (fun j => (w &&& (w - 1)).testBit j) =
      (List.range 64).filter (fun j => w.testBit j && !decide (j = trailingZeros w)) := by
    apply List.filter_congr
    intro a _
    rw [and_pred_testBit64 w hw hlt a]
  rw [h1, filter_range_eq_cons (fun j => w.testBit j) (trailingZeros w) 64
    (trailingZeros_lt w hw hlt) (testBit_trailingZeros w hw hlt)
    (testBit_lt_trailingZeros w hw hlt), List.map_cons]

theorem bitIdx_zero_word (base : Nat) : bitIdx base 0 = [] := by
  unfold bitIdx
  have : (List.range 64).filter (fun j => Nat.testBit 0 j) = [] := by
    rw [List.filter_eq_nil_iff]
    intro a _
    simp
  rw [this]
  rfl

theorem one_shl_shifts : (1 : Nat) <<< WORD_INDEX_SHIFTS = 64 := by decide

theorem lor_eq_add_of_mod (i t : Nat) (hi : i % 64 = 0) (ht : t < 64) :
    i ||| t = i + t := by
  obtain ⟨q, rfl⟩ : ∃ q, i = 2 ^ 6 * q := ⟨i / 64, by omega⟩
  exact (Nat.mul_add_lt_is_or (by norm_num; omega) q).symm

theorem iterNextGo_zero_cons (i w2 : Nat) (rest : List Nat) :
    iterNextGo i 0 (w2 :: rest) = iterNextGo (i + 64) w2 rest := by
  show (if (0 : Nat) = 0 then iterNextGo (i + 1 <<< WORD_INDEX_SHIFTS) w2 rest else _) = _
  rw [if_pos rfl, one_shl_shifts]

theorem iterNextGo_pos (i w : Nat) (hw : w ≠ 0) (ws : List Nat) :
    iterNextGo i w ws = some (i ||| trailingZeros w, (i, w &&& (w - 1), ws)) := by
  match ws with
  | [] =>
    show (if w = 0 then _ else _) = _
    rw [if_neg hw]
  | w2 :: rest =>
    show (if w = 0 then _ else _) = _
    rw [if_neg hw]

theorem iterOnesAux_eq (ws : List Nat) :
    ∀ fuel w i, w < WORD_MOD → (∀ u ∈ ws, u < WORD_MOD) → i % 64 = 0 →
      popCount w + (ws.map popCount).sum < fuel →
      iterOnesAux fuel i w ws = onesList i (w :: ws) := by
  induction ws with
  | nil =>
    intro fuel
    induction fuel with
    | zero =>
      intro w i _ _ _ hfuel
      omega
    | succ fuel ih =>
      intro w i hw _ hi hfuel
      by_cases h0 : w = 0
      · subst h0
        show (match iterNextGo i 0 [] with
          | none => []
          | some (res, (i2, w2, ws2)) => res :: iterOnesAux fuel i2 w2 ws2) = _
        have : iterNextGo i 0 [] = none := by
          show (if (0 : Nat) = 0 then none else _) = none
          rw [if_pos rfl]
        rw [this]
        show ([] : List Nat) = bitIdx i 0 ++ onesList (i + 64) []
        rw [bitIdx_zero_word]
        rfl
      · show (match iterNextGo i w [] with
          | none => []
          | some (res, (i2, w2, ws2)) => res :: iterOnesAux fuel i2 w2 ws2) = _
        rw [iterNextGo_pos i w h0 []]
        show (i ||| trailingZeros w) :: iterOnesAux fuel i (w &&& (w - 1)) [] = _
        have hw2 : w &&& (w - 1) < WORD_MOD := Nat.lt_of_le_of_lt Nat.and_le_left hw
        have hpc : popCount (w &&& (w - 1)) = popCount w - 1 := popCount_and_pred w h0 hw
        have hpos : 0 < popCount w := popCount_pos w h0 hw
        rw [ih (w &&& (w - 1)) i hw2 (by intro u hu; cases hu) hi (by simp at hfuel ⊢; omega)]
        show _ = bitIdx i w ++ onesList (i + 64) []
        rw [bitIdx_cons_tz i w h0 hw,
          lor_eq_add_of_mod i (trailingZeros w) hi (trailingZeros_lt w h0 hw)]
        rfl
  | cons w2 rest ihws =>
    intro fuel
    induction fuel with
    | zero =>
      intro w i _ _ _ hfuel
      omega
    | succ fuel ih =>
      intro w i hw hws hi hfuel
      by_cases h0 : w = 0
      · subst h0
        have hstep : iterOnesAux (fuel + 1) i 0 (w2 :: rest) =
            iterOnesAux (fuel + 1) (i + 64) w2 rest := by
          show (match iterNextGo i 0 (w2 :: rest) with
            | none => []
            | some (res, (i2, w2', ws2)) => res :: iterOnesAux fuel i2 w2' ws2) = _
          rw [iterNextGo_zero_cons]
          rfl
        rw [hstep]
        rw [ihws (fuel + 1) w2 (i + 64) (hws w2 (List.mem_cons_self w2 rest))
          (fun u hu => hws u (List.mem_cons_of_mem _ hu)) (by omega)
          (by simp [popCount_zero] at hfuel ⊢; omega)]
        show _ = bitIdx i 0 ++ onesList (i + 64) (w2 :: rest)
        rw [bitIdx_zero_word]
        rfl
      · show (match iterNextGo i w (w2 :: rest) with
          | none => []
          | some (res, (i2, w2', ws2)) => res :: iterOnesAux fuel i2 w2' ws2) = _
        rw [iterNextGo_pos i w h0 (w2 :: rest)]
        show (i ||| trailingZeros w) :: iterOnesAux fuel i (w &&& (w - 1)) (w2 :: rest) = _
        have hw2b : w &&& (w - 1) < WORD_MOD := Nat.lt_of_le_of_lt Nat.and_le_left hw
        have hpc : popCount (w &&& (w - 1)) = popCount w - 1 := popCount_and_pred w h0 hw
        have hpos : 0 < popCount w := popCount_pos w h0 hw
        rw [ih (w &&& (w - 1)) i hw2b hws hi (by omega)]
        show _ = bitIdx i w ++ onesList (i + 64) (w2 :: rest)
        rw [bitIdx_cons_tz i w h0 hw,
          lor_eq_add_of_mod i (trailingZeros w) hi (trailingZeros_lt w h0 hw)]
        rfl

/-- `iter_ones` yields exactly the set-bit indices in ascending order. -/
theorem BitSet.iter_ones_spec (s : BitSet) (hb : wordsBounded s) :
    s.iter_ones = onesList 0 s.words := by
  rcases hm : s.words with _ | ⟨w, rest⟩
  · unfold BitSet.iter_ones
    rw [hm]
    rfl
  · unfold BitSet.iter_ones
    rw [hm]
    show iterOnesAux (BITS_PER_WORD * (w :: rest).length + 1) 0 w rest =
      onesList 0 (w :: rest)
    apply iterOnesAux_eq
    · exact hb w (by rw [hm]; exact List.mem_cons_self w rest)
    · intro u hu
      exact hb u (by rw [hm]; exact List.mem_cons_of_mem _ hu)
    · rfl
    · have h1 : popCount w ≤ 64 := popCount_le w
      have h2 : (rest.map popCount).sum ≤ 64 * rest.length := by
        clear hm
        induction rest with
        | nil => simp
        | cons a l ihl =>
          simp only [List.map_cons, List.sum_cons, List.length_cons]
          have := popCount_le a
          simp at ihl
          omega
      show popCount w + (rest.map popCount).sum < BITS_PER_WORD * (w :: rest).length + 1
      simp only [BITS_PER_WORD, List.length_cons]
      omega

/-! ### `int_sqrt` is the integer square root -/

theorem shr_one_eq (x : Nat) : x >>> 1 = x / 2 := by
  rw [Nat.shiftRight_eq_div_pow, Nat.pow_one]

theorem int_sqrt_go_eq_iter (fuel : Nat) :
    ∀ x0 n, x0 ≤ fuel → int_sqrt_go fuel n x0 = Nat.sqrt.iter n x0 := by
  induction fuel with
  | zero =>
    intro x0 n hx
    have h0 : x0 = 0 := by omega
    subst h0
    show (0 : Nat) = Nat.sqrt.iter n 0
    rw [Nat.sqrt.iter]
    norm_num
  | succ fuel ih =>
    intro x0 n hx
    show (if (x0 + n / x0) >>> 1 < x0 then int_sqrt_go fuel n ((x0 + n / x0) >>> 1) else x0) = _
    rw [Nat.sqrt.iter, shr_one_eq]
    by_cases h : (x0 + n / x0) / 2 < x0
    · rw [if_pos h, dif_pos h, ih _ n (by omega)]
    · rw [if_neg h, dif_neg h]

theorem int_sqrt_eq_sqrt (n : Nat) : int_sqrt n = Nat.sqrt n := by
  by_cases h : n ≤ 1
  · interval_cases n <;> rfl
  · have h2 : 2 ≤ n := by omega
    have hx0 : n >>> 1 ≠ 0 := by
      rw [shr_one_eq]
      omega
    show (if n >>> 1 ≠ 0 then int_sqrt_go n n (n >>> 1) else n) = _
    rw [if_pos hx0, Nat.sqrt, if_neg h, shr_one_eq,
      int_sqrt_go_eq_iter n (n / 2) n (by omega)]

theorem int_sqrt_le_mul (n : Nat) : int_sqrt n * int_sqrt n ≤ n := by
  rw [int_sqrt_eq_sqrt]
  exact Nat.sqrt_le n

theorem lt_succ_int_sqrt (n : Nat) : n < (int_sqrt n + 1) * (int_sqrt n + 1) := by
  rw [int_sqrt_eq_sqrt]
  exact Nat.lt_succ_sqrt n

theorem int_sqrt_mono {a b : Nat} (h : a ≤ b) : int_sqrt a ≤ int_sqrt b := by
  rw [int_sqrt_eq_sqrt, int_sqrt_eq_sqrt]
  exact Nat.sqrt_le_sqrt h

/-! ### The `usize` version of `int_sqrt` does not overflow -/

/-- Arithmetic-geometric mean step: one Newton iterate never drops below
the integer square root. -/
theorem sqrt_le_newton (n x : Nat) (hx : 0 < x) : Nat.sqrt n ≤ (x + n / x) / 2 := by
  set s := Nat.sqrt n with hs
  have hsq : s * s ≤ n := Nat.sqrt_le n
  have hmod : n % x < x := Nat.mod_lt _ hx
  have hdm : x * (n / x) + n % x = n := Nat.div_add_mod n x
  have h1 : n < x * (n / x) + x := by omega
  have hamgm : 2 * s * x ≤ x * x + s * s := by nlinarith [two_mul_le_add_sq x s]
  have h2 : x * (2 * s) < x * (x + n / x + 1) := by nlinarith
  have h3 : 2 * s < x + n / x + 1 := Nat.lt_of_mul_lt_mul_left h2
  rw [Nat.le_div_iff_mul_le (by norm_num : 0 < 2)]
  omega

theorem sqrt_le_half (n : Nat) (h : 2 ≤ n) : Nat.sqrt n ≤ n / 2 := by
  have := Nat.sqrt_lt'.mpr (show n < (n / 2 + 1) ^ 2 by
    have hq : 1 ≤ n / 2 := by omega
    have hn : n ≤ 2 * (n / 2) + 1 := by omega
    nlinarith)
  omega

/-- The Newton sum `x0 + n / x0` stays below `2 ^ 64` throughout the loop. -/
theorem newton_sum_lt (n x : Nat) (hn : n < WORD_MOD) (h2 : 2 ≤ n)
    (hlo : Nat.sqrt n ≤ x) (hhi : x ≤ n / 2) : x + n / x < WORD_MOD := by
  have hs1 : 1 ≤ Nat.sqrt n := by
    rw [Nat.one_le_iff_ne_zero, Ne, Nat.sqrt_eq_zero]
    omega
  have hx1 : 1 ≤ x := le_trans hs1 hlo
  have hdiv : n / x ≤ n / Nat.sqrt n := Nat.div_le_div_left hlo hs1
  have hsq : n / Nat.sqrt n ≤ Nat.sqrt n + 2 := by
    have hlt : n < (Nat.sqrt n + 1) * (Nat.sqrt n + 1) := Nat.lt_succ_sqrt n
    have hle : n ≤ Nat.sqrt n * (Nat.sqrt n + 2) := by nlinarith
    calc n / Nat.sqrt n ≤ Nat.sqrt n * (Nat.sqrt n + 2) / Nat.sqrt n :=
          Nat.div_le_div_right hle
      _ = Nat.sqrt n + 2 := Nat.mul_div_cancel_left _ (by omega)
  have hsmall : Nat.sqrt n < 2 ^ 32 := by
    rw [Nat.sqrt_lt']
    calc n < WORD_MOD := hn
      _ = (2 ^ 32) ^ 2 := by norm_num [WORD_MOD, BITS_PER_WORD]
  have hn2 : n / 2 ≤ 2 ^ 63 - 1 := by
    have : n ≤ 2 ^ 64 - 1 := by
      have : WORD_MOD = 2 ^ 64 := by norm_num [WORD_MOD, BITS_PER_WORD]
      omega
    omega
  calc x + n / x ≤ n / 2 + (Nat.sqrt n + 2) := by omega
    _ ≤ (2 ^ 63 - 1) + (2 ^ 32 + 1) := by omega
    _ < WORD_MOD := by norm_num [WORD_MOD, BITS_PER_WORD]

theorem int_sqrt_u64_go_eq (fuel : Nat) :
    ∀ x0 n, n < WORD_MOD → 2 ≤ n → Nat.sqrt n ≤ x0 → x0 ≤ n / 2 →
      int_sqrt_u64_go fuel n x0 = int_sqrt_go fuel n x0 := by
  induction fuel with
  | zero => intro x0 n _ _ _ _; rfl
  | succ fuel ih =>
    intro x0 n hn h2 hlo hhi
    have hs1 : 1 ≤ Nat.sqrt n := by
      rw [Nat.one_le_iff_ne_zero, Ne, Nat.sqrt_eq_zero]
      omega
    have hmod : (x0 + n / x0) % WORD_MOD = x0 + n / x0 :=
      Nat.mod_eq_of_lt (newton_sum_lt n x0 hn h2 hlo hhi)
    show (if ((x0 + n / x0) % WORD_MOD) >>> 1 < x0 then _ else x0) = _
    rw [hmod]
    show (if (x0 + n / x0) >>> 1 < x0 then
        int_sqrt_u64_go fuel n ((x0 + n / x0) >>> 1) else x0) =
      (if (x0 + n / x0) >>> 1 < x0 then
        int_sqrt_go fuel n ((x0 + n / x0) >>> 1) else x0)
    by_cases h : (x0 + n / x0) >>> 1 < x0
    · rw [if_pos h, if_pos h]
      apply ih
      · exact hn
      · exact h2
      · rw [shr_one_eq]
        exact sqrt_le_newton n x0 (by omega)
      · rw [shr_one_eq] at h ⊢
        omega
    · rw [if_neg h, if_neg h]

theorem int_sqrt_u64_eq (n : Nat) (hn : n < WORD_MOD) :
    int_sqrt_u64 n = int_sqrt n := by
  by_cases h : n ≤ 1
  · interval_cases n <;> rfl
  · have h2 : 2 ≤ n := by omega
    have hx0 : n >>> 1 ≠ 0 := by
      rw [shr_one_eq]
      omega
    show (if n >>> 1 ≠ 0 then int_sqrt_u64_go n n (n >>> 1) else n) =
      (if n >>> 1 ≠ 0 then int_sqrt_go n n (n >>> 1) else n)
    rw [if_pos hx0, if_pos hx0]
    apply int_sqrt_u64_go_eq
    · exact hn
    · exact h2
    · rw [shr_one_eq]
      exact sqrt_le_half n h2
    · rw [shr_one_eq]

/-! ### Small capacity arithmetic helpers -/

theorem le_64_wordsFor (len : Nat) : len ≤ 64 * wordsFor len := by
  unfold wordsFor
  rw [shr_shifts_eq]
  omega

theorem div64_lt_wordsFor {j len : Nat} (h : j < len) : j / 64 < wordsFor len := by
  unfold wordsFor
  rw [shr_shifts_eq]
  omega

theorem filter_range_lt (N m : Nat) (hm : m ≤ N) :
    (List.range N).filter (fun i => decide (i < m)) = List.range m := by
  rw [filter_range_cut _ m N hm (by
    intro i hi
    simp
    omega)]
  rw [List.filter_eq_self]
  intro a ha
  simp [List.mem_range.mp ha]

/-! ### C4: `int_sqrt` computes the floor square root with no overflow -/

/-- C4: for every unsigned `n`, `int_sqrt n` is exactly the floor square
root (no off-by-one), and the 64-bit wrapping computation agrees with the
ideal one for every `n` below `2 ^ 64`, so no overflow occurs. -/
theorem C4_int_sqrt_floor_no_overflow :
    (∀ n : Nat, int_sqrt n * int_sqrt n ≤ n ∧ n < (int_sqrt n + 1) * (int_sqrt n + 1)) ∧
    (∀ n : Nat, n < WORD_MOD → int_sqrt_u64 n = int_sqrt n) :=
  ⟨fun n => ⟨int_sqrt_le_mul n, lt_succ_int_sqrt n⟩, fun n hn => int_sqrt_u64_eq n hn⟩

theorem C4_int_sqrt_floor_no_overflow_witness :
    ((10 : Nat) ^ 12 < WORD_MOD ∧ int_sqrt_u64 (10 ^ 12) = int_sqrt (10 ^ 12)) ∧
    (int_sqrt (10 ^ 12) * int_sqrt (10 ^ 12) ≤ 10 ^ 12 ∧
      10 ^ 12 < (int_sqrt (10 ^ 12) + 1) * (int_sqrt (10 ^ 12) + 1)) :=
  ⟨⟨by decide, C4_int_sqrt_floor_no_overflow.2 (10 ^ 12) (by decide)⟩,
    C4_int_sqrt_floor_no_overflow.1 (10 ^ 12)⟩

/-! ### C7: which operations preserve the tail-clear invariant -/

/-- C7 counterexample: `truncate` does **not** preserve the invariant that
bits at logical index ≥ L are clear.  A bitset of length 64 built all-true
satisfies the invariant, is truncated (legally) to length 10, and bit 10 —
beyond the new logical length, inside the kept word — still reads set. -/
theorem C7_counterexample_truncate_breaks_tail :
    tailClear (BitSet.new 64 true) 64 ∧ 0 < 10 ∧ 10 ≤ 64 ∧
      ¬ tailClear ((BitSet.new 64 true).truncate 10) 10 := by
  refine ⟨?_, by norm_num, by norm_num, ?_⟩
  · intro i hi
    rw [BitSet.get_new 64 (by norm_num) true i]
    simp
    omega
  · intro h
    have h10 := h 10 (Nat.le_refl 10)
    revert h10
    decide

/-- C7 amended: construction establishes the tail-clear invariant, and
in-range `set`/`clear`, `set_all` and `clear_all` preserve it (`get` and
`count_ones` do not mutate); `truncate` alone may leave stale set bits
beyond the new length (see the counterexample), but the invariant is
restored for the new length by the following `set_all` or `clear_all`. -/
theorem C7_tail_invariant_amended :
    (∀ len v, 0 < len → tailClear (BitSet.new len v) len) ∧
    (∀ (s : BitSet) (len j : Nat), s.words.length = wordsFor len → j < len →
      tailClear s len → tailClear (s.set j) len ∧ tailClear (s.clear j) len) ∧
    (∀ (s : BitSet) (len : Nat), 0 < len → s.words.length = wordsFor len →
      s.last_word_set = lastWordSetFor len → tailClear s.set_all len) ∧
    (∀ (s : BitSet) (len : Nat), tailClear s.clear_all len) ∧
    (∀ (s : BitSet) (len len2 : Nat), 0 < len2 → len2 ≤ len →
      s.words.length = wordsFor len →
      tailClear ((s.truncate len2).set_all) len2 ∧
      tailClear ((s.truncate len2).clear_all) len2) := by
  refine ⟨?_, ?_, ?_, ?_, ?_⟩
  · intro len v h0 i hi
    rw [BitSet.get_new len h0 v i]
    have : ¬ i < len := by omega
    simp [this]
  · intro s len j hlen hj htail
    have hj64 : j / 64 < s.words.length := by
      rw [hlen]
      exact div64_lt_wordsFor hj
    constructor
    · intro i hi
      rw [BitSet.get_set s hj64 i, htail i hi]
      have : ¬ i = j := by omega
      simp [this]
    · intro i hi
      rw [BitSet.get_clear s hj64 i, htail i hi]
      simp
  · intro s len h0 hlen hlast i hi
    rw [BitSet.get_set_all s h0 hlen hlast i]
    simp
    omega
  · intro s len i _
    exact BitSet.get_clear_all s i
  · intro s len len2 h0 hle hlen
    have hwords : (s.truncate len2).words.length = wordsFor len2 := by
      apply BitSet.truncate_words_length
      rw [hlen]
      exact wordsFor_mono hle
    have hlast : (s.truncate len2).last_word_set = lastWordSetFor len2 :=
      BitSet.truncate_last_word_set s len2
    constructor
    · intro i hi
      rw [BitSet.get_set_all _ h0 hwords hlast i]
      simp
      omega
    · intro i _
      exact BitSet.get_clear_all _ i

theorem C7_tail_invariant_amended_witness :
    0 < 5 ∧ tailClear (BitSet.new 5 false) 5 :=
  ⟨by norm_num, C7_tail_invariant_amended.1 5 false (by norm_num)⟩

/-! ### C9: truncate then set_all counts exactly the new length -/

/-- C9: building a bitset of length `L` (either initial value), truncating
to `0 < L2 < L`, then calling `set_all` makes `count_ones` exactly `L2`:
no set bit leaks beyond the new logical length. -/
theorem C9_truncate_then_reset (L L2 : Nat) (v : Bool) (h0 : 0 < L2) (hlt : L2 < L) :
    (((BitSet.new L v).truncate L2).set_all).count_ones = L2 := by
  set s := (BitSet.new L v).truncate L2 with hs
  have hwords : s.words.length = wordsFor L2 := by
    rw [hs]
    apply BitSet.truncate_words_length
    rw [BitSet.words_length_new]
    exact wordsFor_mono (by omega)
  have hlast : s.last_word_set = lastWordSetFor L2 :=
    BitSet.truncate_last_word_set _ L2
  have hb : wordsBounded s.set_all := BitSet.wordsBounded_set_all s hlast
  have hlen : s.set_all.words.length = wordsFor L2 := by
    rw [BitSet.set_all_words_length s (by
      intro hnil
      rw [hnil] at hwords
      unfold wordsFor at hwords
      simp at hwords), hwords]
  rw [BitSet.count_ones_spec _ hb, hlen]
  have hget : ∀ i, s.set_all.get i = decide (i < L2) :=
    BitSet.get_set_all s h0 hwords hlast
  have : (List.range (64 * wordsFor L2)).filter (fun i => s.set_all.get i) =
      (List.range (64 * wordsFor L2)).filter (fun i => decide (i < L2)) := by
    apply List.filter_congr
    intro a _
    rw [hget a]
  rw [this, filter_range_lt _ _ (le_64_wordsFor L2), List.length_range]

theorem C9_truncate_then_reset_witness :
    0 < 10 ∧ 10 < 100 ∧ (((BitSet.new 100 true).truncate 10).set_all).count_ones = 10 :=
  ⟨by norm_num, by norm_num, C9_truncate_then_reset 100 10 true (by norm_num) (by norm_num)⟩

/-! ### C6: the set-then-iterate round trip -/

theorem setMany_get (l : List Nat) :
    ∀ (s : BitSet), (∀ j ∈ l, j / 64 < s.words.length) →
      ((setMany s l).words.length = s.words.length ∧
        (setMany s l).last_word_set = s.last_word_set) ∧
      ∀ i, (setMany s l).get i = (decide (i ∈ l) || s.get i) := by
  induction l with
  | nil =>
    intro s _
    refine ⟨⟨rfl, rfl⟩, fun i => ?_⟩
    simp [setMany]
  | cons a t ih =>
    intro s hj
    have ha : a / 64 < s.words.length := hj a (List.mem_cons_self a t)
    have hstep : setMany s (a :: t) = setMany (s.set a) t := rfl
    have hlen : (s.set a).words.length = s.words.length := BitSet.set_words_length s a
    obtain ⟨⟨ihlen, ihlast⟩, ihget⟩ := ih (s.set a) (by
      intro j hjt
      rw [hlen]
      exact hj j (List.mem_cons_of_mem _ hjt))
    rw [hstep]
    refine ⟨⟨by rw [ihlen, hlen], by rw [ihlast, BitSet.set_last_word_set]⟩, fun i => ?_⟩
    rw [ihget i, BitSet.get_set s ha i]
    by_cases hm : i ∈ a :: t
    · rcases List.mem_cons.mp hm with h | h
      · simp [hm, h]
      · simp [hm, h]
    · have h1 : ¬ i ∈ t := fun h => hm (List.mem_cons_of_mem _ h)
      have h2 : ¬ i = a := fun h => hm (by rw [h]; exact List.mem_cons_self a t)
      simp [hm, h1, h2]

theorem wordsBounded_setMany (l : List Nat) :
    ∀ (s : BitSet), wordsBounded s → wordsBounded (setMany s l) := by
  induction l with
  | nil => intro s hs; exact hs
  | cons a t ih =>
    intro s hs
    exact ih (s.set a) (BitSet.wordsBounded_set s a hs (Nat.mod_lt _ (by norm_num)))

theorem sorted_filter_range_mem (l : List Nat) (N : Nat)
    (hsort : l.Sorted (· < ·)) (hlt : ∀ i ∈ l, i < N) :
    (List.range N).filter (fun i => decide (i ∈ l)) = l := by
  have hnd1 : ((List.range N).filter (fun i => decide (i ∈ l))).Nodup :=
    (List.nodup_range N).filter _
  have hnd2 : l.Nodup := by
    haveI : IsIrrefl Nat (· < ·) := ⟨fun a => Nat.lt_irrefl a⟩
    exact hsort.nodup
  have hmem : ∀ a, a ∈ (List.range N).filter (fun i => decide (i ∈ l)) ↔ a ∈ l := by
    intro a
    rw [List.mem_filter, List.mem_range]
    constructor
    · rintro ⟨-, h⟩
      simpa using h
    · intro h
      exact ⟨hlt a h, by simpa using h⟩
  have hperm : List.Perm ((List.range N).filter (fun i => decide (i ∈ l))) l :=
    (List.perm_ext_iff_of_nodup hnd1 hnd2).mpr hmem
  haveI : IsAntisymm Nat (· < ·) := ⟨fun a b h1 h2 => by omega⟩
  exact List.eq_of_perm_of_sorted hperm
    (List.Pairwise.filter _ (List.pairwise_lt_range N)) hsort

/-- C6: for any positive length `L` and any set of indices below `L`
(given as its strictly ascending list of elements), building an all-false
bitset of length `L` and setting exactly those indices yields a bitset
whose `iter_ones` is exactly that ascending list and whose `count_ones` is
its size. -/
theorem C6_roundtrip (L : Nat) (l : List Nat) (h0 : 0 < L)
    (hsort : l.Sorted (· < ·)) (hlt : ∀ i ∈ l, i < L) :
    (setMany (BitSet.new L false) l).iter_ones = l ∧
    (setMany (BitSet.new L false) l).count_ones = l.length := by
  set s0 := BitSet.new L false with hs0
  have hcap : ∀ j ∈ l, j / 64 < s0.words.length := by
    intro j hj
    rw [hs0, BitSet.words_length_new]
    exact div64_lt_wordsFor (hlt j hj)
  obtain ⟨⟨hlen, -⟩, hget⟩ := setMany_get l s0 hcap
  have hb : wordsBounded (setMany s0 l) :=
    wordsBounded_setMany l s0 (BitSet.wordsBounded_new L false)
  have hget2 : ∀ i, (setMany s0 l).get i = decide (i ∈ l) := by
    intro i
    rw [hget i, hs0, BitSet.get_new L h0 false i]
    simp
  have hfilter : (List.range (64 * (setMany s0 l).words.length)).filter
      (fun i => (setMany s0 l).get i) = l := by
    have : (List.range (64 * (setMany s0 l).words.length)).filter
        (fun i => (setMany s0 l).get i) =
        (List.range (64 * (setMany s0 l).words.length)).filter
          (fun i => decide (i ∈ l)) := by
      apply List.filter_congr
      intro a _
      rw [hget2 a]
    rw [this]
    apply sorted_filter_range_mem l _ hsort
    intro i hi
    calc i < L := hlt i hi
      _ ≤ 64 * wordsFor L := le_64_wordsFor L
      _ = 64 * (setMany s0 l).words.length := by
          rw [hlen, hs0, BitSet.words_length_new]
  constructor
  · rw [BitSet.iter_ones_spec _ hb, onesList_zero_eq_filter]
    have hc : (List.range (64 * (setMany s0 l).words.length)).filter
        (fun i => ((setMany s0 l).words.getD (i / 64) 0).testBit (i % 64)) =
        (List.range (64 * (setMany s0 l).words.length)).filter
          (fun i => (setMany s0 l).get i) := by
      apply List.filter_congr
      intro a _
      rw [BitSet.get_eq_testBit]
      rfl
    rw [hc, hfilter]
  · rw [BitSet.count_ones_spec _ hb, hfilter]

theorem C6_roundtrip_witness :
    (0 < 70 ∧ List.Sorted (· < ·) [0, 3, 64, 69] ∧
      ∀ i ∈ ([0, 3, 64, 69] : List Nat), i < 70) ∧
    (setMany (BitSet.new 70 false) [0, 3, 64, 69]).iter_ones = [0, 3, 64, 69] ∧
    (setMany (BitSet.new 70 false) [0, 3, 64, 69]).count_ones =
      ([0, 3, 64, 69] : List Nat).length :=
  ⟨⟨by norm_num, by decide, by decide⟩,
    (C6_roundtrip 70 [0, 3, 64, 69] (by norm_num) (by decide) (by decide)).1,
    (C6_roundtrip 70 [0, 3, 64, 69] (by norm_num) (by decide) (by decide)).2⟩

/-! ### The marking loop of `gen_table` -/

theorem markLoop_spec (fuel : Nat) :
    ∀ (t : BitSet) (j i n : Nat), 1 ≤ i → j ≤ n → n < j + fuel * i →
      n / 64 < t.words.length →
      ((markLoop fuel t j i n).words.length = t.words.length ∧
        (markLoop fuel t j i n).last_word_set = t.last_word_set ∧
        (wordsBounded t → wordsBounded (markLoop fuel t j i n))) ∧
      ∀ k, (markLoop fuel t j i n).get k =
        (t.get k && !decide (j ≤ k ∧ k ≤ n ∧ i ∣ (k - j))) := by
  induction fuel with
  | zero =>
    intro t j i n hi hjn hfuel _
    simp at hfuel
    omega
  | succ fuel ih =>
    intro t j i n hi hjn hfuel hcap
    have hj64 : j / 64 < t.words.length :=
      Nat.lt_of_le_of_lt (Nat.div_le_div_right hjn) hcap
    have hstep : markLoop (fuel + 1) t j i n =
        if j + i > n then t.clear j else markLoop fuel (t.clear j) (j + i) i n := rfl
    by_cases hstop : j + i > n
    · rw [hstep, if_pos hstop]
      refine ⟨⟨BitSet.clear_words_length t j, BitSet.clear_last_word_set t j,
        fun hb => BitSet.wordsBounded_clear t j hb⟩, fun k => ?_⟩
      rw [BitSet.get_clear t hj64 k]
      have hiff : (j ≤ k ∧ k ≤ n ∧ i ∣ (k - j)) ↔ k = j := by
        constructor
        · rintro ⟨hjk, hkn, hdvd⟩
          rcases Nat.eq_zero_or_pos (k - j) with h0 | hpos
          · omega
          · have := Nat.le_of_dvd hpos hdvd
            omega
        · rintro rfl
          exact ⟨Nat.le_refl _, hjn, by simp⟩
      rw [show decide (j ≤ k ∧ k ≤ n ∧ i ∣ (k - j)) = decide (k = j) by
        rw [decide_eq_decide]; exact hiff]
      cases hd : decide (k = j) <;> simp
    · rw [hstep, if_neg hstop]
      have hji : j + i ≤ n := by omega
      have hfuel2 : n < (j + i) + fuel * i := by
        rw [Nat.succ_mul] at hfuel
        omega
      have hcap2 : n / 64 < (t.clear j).words.length := by
        rw [BitSet.clear_words_length]
        exact hcap
      obtain ⟨⟨hl, hlast, hb⟩, hget⟩ := ih (t.clear j) (j + i) i n hi hji hfuel2 hcap2
      refine ⟨⟨by rw [hl, BitSet.clear_words_length],
        by rw [hlast, BitSet.clear_last_word_set],
        fun hbt => hb (BitSet.wordsBounded_clear t j hbt)⟩, fun k => ?_⟩
      rw [hget k, BitSet.get_clear t hj64 k]
      have hiff : (j ≤ k ∧ k ≤ n ∧ i ∣ (k - j)) ↔
          (k = j ∨ (j + i ≤ k ∧ k ≤ n ∧ i ∣ (k - (j + i)))) := by
        constructor
        · rintro ⟨hjk, hkn, hdvd⟩
          rcases Nat.eq_zero_or_pos (k - j) with h0 | hpos
          · left; omega
          · right
            have hik : i ≤ k - j := Nat.le_of_dvd hpos hdvd
            refine ⟨by omega, hkn, ?_⟩
            have heq : k - (j + i) = (k - j) - i := by omega
            rw [heq]
            exact Nat.dvd_sub' hdvd (Nat.dvd_refl i)
        · rintro (rfl | ⟨hjk, hkn, hdvd⟩)
          · exact ⟨Nat.le_refl _, hjn, by simp⟩
          · refine ⟨by omega, hkn, ?_⟩
            have heq : k - j = (k - (j + i)) + i := by omega
            rw [heq]
            exact Nat.dvd_add hdvd (Nat.dvd_refl i)
      rw [show decide (j ≤ k ∧ k ≤ n ∧ i ∣ (k - j)) =
          (decide (k = j) || decide (j + i ≤ k ∧ k ≤ n ∧ i ∣ (k - (j + i)))) by
        rw [← Bool.decide_or, decide_eq_decide]
        exact hiff]
      cases hd1 : decide (k = j) <;> cases hd2 : decide (j + i ≤ k ∧ k ≤ n ∧ i ∣ (k - (j + i))) <;>
        simp

/-! ### The `safeAt` invariant -/

theorem safeAt_self (i : Nat) (h2 : 2 ≤ i) : safeAt i i ↔ i.Prime := by
  constructor
  · intro hs
    by_contra hnp
    have hd := Nat.minFac_dvd i
    have hdp : (Nat.minFac i).Prime := Nat.minFac_prime (by omega)
    have hsq : Nat.minFac i ^ 2 ≤ i := Nat.minFac_sq_le_self (by omega) hnp
    rw [pow_two] at hsq
    have hlt : Nat.minFac i < i := by
      have hle : Nat.minFac i ≤ Nat.sqrt i := by
        rw [Nat.le_sqrt]
        exact hsq
      have hsl : Nat.sqrt i < i := Nat.sqrt_lt_self (by omega)
      omega
    have := hs (Nat.minFac i) hlt hdp hd
    omega
  · intro hp d hdlt hdp hdvd
    rcases Nat.Prime.eq_one_or_self_of_dvd hp d hdvd with h1 | h1
    · have := hdp.two_le
      omega
    · omega

theorem safeAt_final (i j n : Nat) (h2 : 2 ≤ j) (hjn : j ≤ n) (hni : n < i * i) :
    safeAt i j ↔ j.Prime := by
  constructor
  · intro hs
    by_contra hnp
    have hd := Nat.minFac_dvd j
    have hdp : (Nat.minFac j).Prime := Nat.minFac_prime (by omega)
    have hsq : Nat.minFac j ^ 2 ≤ j := Nat.minFac_sq_le_self (by omega) hnp
    rw [pow_two] at hsq
    have hlt : Nat.minFac j < i :=
      Nat.mul_self_lt_mul_self_iff.mp (by omega)
    have := hs (Nat.minFac j) hlt hdp hd
    omega
  · intro hp d hdlt hdp hdvd
    rcases Nat.Prime.eq_one_or_self_of_dvd hp d hdvd with h1 | h1
    · have := hdp.two_le
      omega
    · subst h1
      nlinarith

theorem safeAt_succ_of_prime (i j : Nat) (hp : i.Prime) :
    safeAt (i + 1) j ↔ (safeAt i j ∧ (i ∣ j → j < i * i)) := by
  constructor
  · intro hs
    exact ⟨fun d hd => hs d (by omega), fun hdvd => hs i (by omega) hp hdvd⟩
  · rintro ⟨hs, hi⟩ d hd hdp hdvd
    rcases Nat.lt_or_ge d i with h | h
    · exact hs d h hdp hdvd
    · have hdi : d = i := by omega
      subst hdi
      exact hi hdvd

theorem safeAt_succ_of_not_prime (i j : Nat) (hnp : ¬ i.Prime) :
    safeAt (i + 1) j ↔ safeAt i j := by
  constructor
  · intro hs d hd hdp hdvd
    exact hs d (by omega) hdp hdvd
  · intro hs d hd hdp hdvd
    rcases Nat.lt_or_ge d i with h | h
    · exact hs d h hdp hdvd
    · have hdi : d = i := by omega
      subst hdi
      exact absurd hdp hnp

theorem safeAt_two (j : Nat) : safeAt 2 j := by
  intro d hd hdp _
  interval_cases d
  · exact absurd hdp Nat.not_prime_zero
  · exact absurd hdp Nat.not_prime_one

theorem inv_final (t : BitSet) (i n : Nat) (hni : n < i * i)
    (hinv : ∀ j, t.get j = decide (2 ≤ j ∧ j ≤ n ∧ safeAt i j)) :
    ∀ j, t.get j = decide (2 ≤ j ∧ j ≤ n ∧ j.Prime) := by
  intro j
  rw [hinv j, decide_eq_decide]
  constructor
  · rintro ⟨h2, hjn, hs⟩
    exact ⟨h2, hjn, (safeAt_final i j n h2 hjn hni).mp hs⟩
  · rintro ⟨h2, hjn, hp⟩
    exact ⟨h2, hjn, (safeAt_final i j n h2 hjn hni).mpr hp⟩

theorem shl_one_or_one (i : Nat) : (i <<< 1) ||| 1 = 2 * i + 1 := by
  have h1 : i <<< 1 = 2 ^ 1 * i := by
    rw [Nat.shiftLeft_eq]
    ring
  rw [h1, ← Nat.mul_add_lt_is_or (by norm_num) i]

/-! ### The outer loop of `gen_table` -/

theorem genLoop_spec (fuel : Nat) :
    ∀ (t : BitSet) (i n : Nat), 2 ≤ i → n + 2 ≤ i + fuel →
      n / 64 < t.words.length →
      (∀ j, t.get j = decide (2 ≤ j ∧ j ≤ n ∧ safeAt i j)) →
      ((genLoop fuel t i (i * i) n).words.length = t.words.length ∧
        (genLoop fuel t i (i * i) n).last_word_set = t.last_word_set ∧
        (wordsBounded t → wordsBounded (genLoop fuel t i (i * i) n))) ∧
      ∀ j, (genLoop fuel t i (i * i) n).get j = decide (2 ≤ j ∧ j ≤ n ∧ j.Prime) := by
  induction fuel with
  | zero =>
    intro t i n h2 hfuel hcap hinv
    have hni : n < i * i := by nlinarith
    exact ⟨⟨rfl, rfl, fun hb => hb⟩, inv_final t i n hni hinv⟩
  | succ fuel ih =>
    intro t i n h2 hfuel hcap hinv
    have hstep : genLoop (fuel + 1) t i (i * i) n =
        if i * i ≤ n then
          genLoop fuel (if t.get i then markLoop n t (i * i) i n else t)
            (i + 1) (i * i + ((i <<< 1) ||| 1)) n
        else t := rfl
    by_cases hle : i * i ≤ n
    · have hin : i ≤ n := by nlinarith
      have hsq : i * i + ((i <<< 1) ||| 1) = (i + 1) * (i + 1) := by
        rw [shl_one_or_one]
        ring
      have hgeti : t.get i = decide (safeAt i i) := by
        rw [hinv i, decide_eq_decide]
        constructor
        · rintro ⟨-, -, h⟩
          exact h
        · intro h
          exact ⟨h2, hin, h⟩
      rw [hstep, if_pos hle, hsq]
      by_cases hsafe : safeAt i i
      · have hprime : i.Prime := (safeAt_self i h2).mp hsafe
        have hgt : t.get i = true := by
          rw [hgeti, decide_eq_true_eq]
          exact hsafe
        rw [if_pos hgt]
        have hmfuel : n < i * i + n * i := by
          have h4 : 4 ≤ i * i := by nlinarith
          have hni : n ≤ n * i := by nlinarith
          omega
        obtain ⟨⟨hml, hmlast, hmb⟩, hmget⟩ :=
          markLoop_spec n t (i * i) i n (by omega) hle hmfuel hcap
        have hinv2 : ∀ j, (markLoop n t (i * i) i n).get j =
            decide (2 ≤ j ∧ j ≤ n ∧ safeAt (i + 1) j) := by
          intro j
          rw [hmget j, hinv j, ← decide_not, ← Bool.decide_and, decide_eq_decide]
          constructor
          · rintro ⟨⟨hj2, hjn, hsj⟩, hnm⟩
            refine ⟨hj2, hjn, (safeAt_succ_of_prime i j hprime).mpr ⟨hsj, fun hdvd => ?_⟩⟩
            by_contra hge
            exact hnm ⟨by omega, hjn, by
              have heq : j - i * i = j - i * i := rfl
              exact Nat.dvd_sub' hdvd (Dvd.intro i rfl)⟩
          · rintro ⟨hj2, hjn, hs1⟩
            obtain ⟨hsj, himp⟩ := (safeAt_succ_of_prime i j hprime).mp hs1
            refine ⟨⟨hj2, hjn, hsj⟩, ?_⟩
            rintro ⟨hge, -, hdvd⟩
            have hdj : i ∣ j := by
              have heq : j = (j - i * i) + i * i := by omega
              rw [heq]
              exact Nat.dvd_add hdvd (Dvd.intro i rfl)
            have := himp hdj
            omega
        obtain ⟨⟨hgl, hglast, hgb⟩, hgget⟩ := ih (markLoop n t (i * i) i n) (i + 1) n
          (by omega) (by omega) (by rw [hml]; exact hcap) hinv2
        exact ⟨⟨by rw [hgl, hml], by rw [hglast, hmlast],
          fun hb => hgb (hmb hb)⟩, hgget⟩
      · have hgf : t.get i = false := by
          rw [hgeti, decide_eq_false_iff_not]
          exact hsafe
        rw [if_neg (by rw [hgf]; exact Bool.false_ne_true)]
        have hnp : ¬ i.Prime := fun hp => hsafe ((safeAt_self i h2).mpr hp)
        have hinv2 : ∀ j, t.get j = decide (2 ≤ j ∧ j ≤ n ∧ safeAt (i + 1) j) := by
          intro j
          rw [hinv j, decide_eq_decide]
          constructor
          · rintro ⟨hj2, hjn, hsj⟩
            exact ⟨hj2, hjn, (safeAt_succ_of_not_prime i j hnp).mpr hsj⟩
          · rintro ⟨hj2, hjn, hsj⟩
            exact ⟨hj2, hjn, (safeAt_succ_of_not_prime i j hnp).mp hsj⟩
        exact ih t (i + 1) n (by omega) (by omega) hcap hinv2
    · rw [hstep, if_neg hle]
      exact ⟨⟨rfl, rfl, fun hb => hb⟩, inv_final t i n (by omega) hinv⟩

/-! ### `gen_table` computes primality -/

theorem gen_table_spec (n : Nat) (h1 : 1 ≤ n) :
    ((Eratosthenes.gen_table n).words.length = wordsFor (n + 1) ∧
      (Eratosthenes.gen_table n).last_word_set = lastWordSetFor (n + 1) ∧
      wordsBounded (Eratosthenes.gen_table n)) ∧
    ∀ j, (Eratosthenes.gen_table n).get j = decide (2 ≤ j ∧ j ≤ n ∧ j.Prime) := by
  set t0 := ((BitSet.new (n + 1) true).clear 0).clear 1 with ht0
  have hlen0 : t0.words.length = wordsFor (n + 1) := by
    rw [ht0, BitSet.clear_words_length, BitSet.clear_words_length, BitSet.words_length_new]
  have hlast0 : t0.last_word_set = lastWordSetFor (n + 1) := by
    rw [ht0, BitSet.clear_last_word_set, BitSet.clear_last_word_set,
      BitSet.last_word_set_new]
  have hb0 : wordsBounded t0 := by
    rw [ht0]
    exact BitSet.wordsBounded_clear _ 1
      (BitSet.wordsBounded_clear _ 0 (BitSet.wordsBounded_new (n + 1) true))
  have hcap : n / 64 < t0.words.length := by
    rw [hlen0]
    exact div64_lt_wordsFor (by omega)
  have hc0 : (0 : Nat) / 64 < (BitSet.new (n + 1) true).words.length := by
    rw [BitSet.words_length_new]
    exact div64_lt_wordsFor (by omega)
  have hc1 : (1 : Nat) / 64 < ((BitSet.new (n + 1) true).clear 0).words.length := by
    rw [BitSet.clear_words_length, BitSet.words_length_new]
    exact div64_lt_wordsFor (by omega)
  have hinv0 : ∀ j, t0.get j = decide (2 ≤ j ∧ j ≤ n ∧ safeAt 2 j) := by
    intro j
    rw [ht0, BitSet.get_clear _ hc1 j, BitSet.get_clear _ hc0 j,
      BitSet.get_new (n + 1) (by omega) true j, Bool.true_and]
    have : ∀ (a b c : Bool), (!a && (!b && c)) = (c && (!b && !a)) := by decide
    rw [this]
    rw [← decide_not, ← decide_not, ← Bool.decide_and, ← Bool.decide_and,
      decide_eq_decide]
    constructor
    · rintro ⟨hlt, h0, h1'⟩
      exact ⟨by omega, by omega, safeAt_two j⟩
    · rintro ⟨h2, hjn, -⟩
      exact ⟨by omega, by omega, by omega⟩
  have hgen : Eratosthenes.gen_table n = genLoop (n + 1) t0 2 (2 * 2) n := rfl
  obtain ⟨⟨hl, hlast, hb⟩, hget⟩ :=
    genLoop_spec (n + 1) t0 2 n (by omega) (by omega) hcap hinv0
  rw [hgen]
  exact ⟨⟨by rw [hl, hlen0], by rw [hlast, hlast0], hb hb0⟩, hget⟩

theorem gen_table_count (n : Nat) (h1 : 1 ≤ n) :
    (Eratosthenes.gen_table n).count_ones = primeCount n := by
  obtain ⟨⟨hlen, -, hb⟩, hget⟩ := gen_table_spec n h1
  rw [BitSet.count_ones_spec _ hb, hlen]
  have hcut : (List.range (64 * wordsFor (n + 1))).filter
      (fun i => (Eratosthenes.gen_table n).get i) =
      (List.range (n + 1)).filter (fun i => (Eratosthenes.gen_table n).get i) := by
    apply filter_range_cut _ (n + 1) _ (le_64_wordsFor (n + 1))
    intro i hi
    rw [hget i, decide_eq_false_iff_not]
    rintro ⟨-, h, -⟩
    omega
  have hcongr : (List.range (n + 1)).filter (fun i => (Eratosthenes.gen_table n).get i) =
      (List.range (n + 1)).filter (fun i => decide (Nat.Prime i)) := by
    apply List.filter_congr
    intro a ha
    rw [hget a, decide_eq_decide]
    have := List.mem_range.mp ha
    constructor
    · rintro ⟨-, -, hp⟩
      exact hp
    · intro hp
      exact ⟨hp.two_le, by omega, hp⟩
  rw [hcut, hcongr]
  unfold primeCount
  rw [Nat.count, List.countP_eq_length_filter]

theorem primeCount_lt_two (n : Nat) (h : n < 2) : primeCount n = 0 := by
  unfold primeCount
  interval_cases n
  · rw [Nat.count_succ]
    simp [Nat.not_prime_zero]
  · rw [Nat.count_succ, Nat.count_succ]
    simp [Nat.not_prime_zero, Nat.not_prime_one]

theorem eratosthenes_prime_pi_correct (n : Nat) :
    Eratosthenes.prime_pi n = primeCount n := by
  unfold Eratosthenes.prime_pi
  by_cases h : n < 2
  · rw [if_pos h, primeCount_lt_two n h]
  · rw [if_neg h, gen_table_count n (by omega)]

/-! ### C3: `gen_table` builds the primality table -/

/-- C3: for `n ≥ 1`, `gen_table n` is a bit array of logical length
`n + 1` (storage of `wordsFor (n+1)` words with the matching tail mask)
whose bit `i` is set exactly when `i` is prime, for every `i ≤ n`; in
particular bits 0 and 1 are clear and every bit beyond `n` is clear. -/
theorem C3_gen_table_primality (n : Nat) (h : 1 ≤ n) :
    (Eratosthenes.gen_table n).words.length = wordsFor (n + 1) ∧
    (Eratosthenes.gen_table n).last_word_set = lastWordSetFor (n + 1) ∧
    (∀ i, i ≤ n → (Eratosthenes.gen_table n).get i = decide (Nat.Prime i)) ∧
    (Eratosthenes.gen_table n).get 0 = false ∧
    (Eratosthenes.gen_table n).get 1 = false ∧
    ∀ i, n < i → (Eratosthenes.gen_table n).get i = false := by
  obtain ⟨⟨hlen, hlast, -⟩, hget⟩ := gen_table_spec n h
  refine ⟨hlen, hlast, ?_, ?_, ?_, ?_⟩
  · intro i hi
    rw [hget i, decide_eq_decide]
    constructor
    · rintro ⟨-, -, hp⟩
      exact hp
    · intro hp
      exact ⟨hp.two_le, hi, hp⟩
  · rw [hget 0, decide_eq_false_iff_not]
    rintro ⟨h2, -, -⟩
    omega
  · rw [hget 1, decide_eq_false_iff_not]
    rintro ⟨h2, -, -⟩
    omega
  · intro i hi
    rw [hget i, decide_eq_false_iff_not]
    rintro ⟨-, hle, -⟩
    omega

theorem C3_gen_table_primality_witness :
    (1 ≤ 30 ∧ (Eratosthenes.gen_table 30).get 7 = decide (Nat.Prime 7)) ∧
    (Eratosthenes.gen_table 30).get 7 = true ∧
    (Eratosthenes.gen_table 30).get 9 = false :=
  ⟨⟨by norm_num, (C3_gen_table_primality 30 (by norm_num)).2.2.1 7 (by norm_num)⟩,
    by decide, by decide⟩

/-! ### The base prime list -/

theorem basePrimes_eq (S : Nat) (h1 : 1 ≤ S) :
    (Eratosthenes.gen_table S).iter_ones =
      (List.range (S + 1)).filter (fun p => decide (Nat.Prime p)) := by
  obtain ⟨⟨hlen, -, hb⟩, hget⟩ := gen_table_spec S h1
  rw [BitSet.iter_ones_spec _ hb, onesList_zero_eq_filter]
  have hg : (List.range (64 * (Eratosthenes.gen_table S).words.length)).filter
      (fun i => ((Eratosthenes.gen_table S).words.getD (i / 64) 0).testBit (i % 64)) =
      (List.range (64 * (Eratosthenes.gen_table S).words.length)).filter
        (fun i => (Eratosthenes.gen_table S).get i) := by
    apply List.filter_congr
    intro a _
    rw [BitSet.get_eq_testBit]
    rfl
  rw [hg, hlen]
  have hcut : (List.range (64 * wordsFor (S + 1))).filter
      (fun i => (Eratosthenes.gen_table S).get i) =
      (List.range (S + 1)).filter (fun i => (Eratosthenes.gen_table S).get i) := by
    apply filter_range_cut _ (S + 1) _ (le_64_wordsFor (S + 1))
    intro i hi
    rw [hget i, decide_eq_false_iff_not]
    rintro ⟨-, h, -⟩
    omega
  rw [hcut]
  apply List.filter_congr
  intro a ha
  rw [hget a, decide_eq_decide]
  have := List.mem_range.mp ha
  constructor
  · rintro ⟨-, -, hp⟩
    exact hp
  · intro hp
    exact ⟨hp.two_le, by omega, hp⟩

theorem basePrimes_sorted (S : Nat) :
    ((List.range (S + 1)).filter (fun p => decide (Nat.Prime p))).Sorted (· < ·) :=
  List.Pairwise.filter _ (List.pairwise_lt_range (S + 1))

theorem basePrimes_mem (S q : Nat) :
    q ∈ (List.range (S + 1)).filter (fun p => decide (Nat.Prime p)) ↔
      q ≤ S ∧ q.Prime := by
  rw [List.mem_filter, List.mem_range]
  simp [Nat.lt_succ_iff]

/-! ### `mark_non_primes` clears the multiples in a window -/

theorem markSegAux_spec (fuel : Nat) :
    ∀ (seg : BitSet) (i p seg_len : Nat), 1 ≤ p → seg_len ≤ i + fuel * p →
      seg_len ≤ 64 * seg.words.length →
      ((markSegAux fuel seg i p seg_len).words.length = seg.words.length ∧
        (markSegAux fuel seg i p seg_len).last_word_set = seg.last_word_set ∧
        (wordsBounded seg → wordsBounded (markSegAux fuel seg i p seg_len))) ∧
      ∀ k, (markSegAux fuel seg i p seg_len).get k =
        (seg.get k && !decide (i ≤ k ∧ k < seg_len ∧ p ∣ (k - i))) := by
  induction fuel with
  | zero =>
    intro seg i p seg_len hp hfuel _
    refine ⟨⟨rfl, rfl, fun hb => hb⟩, fun k => ?_⟩
    have hfalse : decide (i ≤ k ∧ k < seg_len ∧ p ∣ (k - i)) = false := by
      rw [decide_eq_false_iff_not]
      rintro ⟨h1, h2, -⟩
      simp at hfuel
      omega
    rw [hfalse]
    show (markSegAux 0 seg i p seg_len).get k = (seg.get k && !false)
    simp
    rfl
  | succ fuel ih =>
    intro seg i p seg_len hp hfuel hcap
    have hstep : markSegAux (fuel + 1) seg i p seg_len =
        if i < seg_len then markSegAux fuel (seg.clear i) (i + p) p seg_len else seg := rfl
    by_cases hlt : i < seg_len
    · rw [hstep, if_pos hlt]
      have hi64 : i / 64 < seg.words.length := by
        have h1 : i / 64 < seg_len / 64 + 1 := by omega
        have h2 : seg_len / 64 < seg.words.length ∨ seg_len / 64 = seg.words.length ∧
            seg_len % 64 = 0 := by omega
        omega
      have hfuel2 : seg_len ≤ (i + p) + fuel * p := by
        rw [Nat.succ_mul] at hfuel
        omega
      have hcap2 : seg_len ≤ 64 * (seg.clear i).words.length := by
        rw [BitSet.clear_words_length]
        exact hcap
      obtain ⟨⟨hl, hlast, hb⟩, hget⟩ := ih (seg.clear i) (i + p) p seg_len hp hfuel2 hcap2
      refine ⟨⟨by rw [hl, BitSet.clear_words_length],
        by rw [hlast, BitSet.clear_last_word_set],
        fun hbs => hb (BitSet.wordsBounded_clear seg i hbs)⟩, fun k => ?_⟩
      rw [hget k, BitSet.get_clear seg hi64 k]
      have hiff : (i ≤ k ∧ k < seg_len ∧ p ∣ (k - i)) ↔
          (k = i ∨ (i + p ≤ k ∧ k < seg_len ∧ p ∣ (k - (i + p)))) := by
        constructor
        · rintro ⟨hik, hks, hdvd⟩
          rcases Nat.eq_zero_or_pos (k - i) with h0 | hpos
          · left; omega
          · right
            have hpk : p ≤ k - i := Nat.le_of_dvd hpos hdvd
            refine ⟨by omega, hks, ?_⟩
            have heq : k - (i + p) = (k - i) - p := by omega
            rw [heq]
            exact Nat.dvd_sub' hdvd (Nat.dvd_refl p)
        · rintro (rfl | ⟨hik, hks, hdvd⟩)
          · exact ⟨Nat.le_refl _, hlt, by simp⟩
          · refine ⟨by omega, hks, ?_⟩
            have heq : k - i = (k - (i + p)) + p := by omega
            rw [heq]
            exact Nat.dvd_add hdvd (Nat.dvd_refl p)
      rw [show decide (i ≤ k ∧ k < seg_len ∧ p ∣ (k - i)) =
          (decide (k = i) || decide (i + p ≤ k ∧ k < seg_len ∧ p ∣ (k - (i + p)))) by
        rw [← Bool.decide_or, decide_eq_decide]
        exact hiff]
      cases hd1 : decide (k = i) <;>
        cases hd2 : decide (i + p ≤ k ∧ k < seg_len ∧ p ∣ (k - (i + p))) <;> simp
    · rw [hstep, if_neg hlt]
      refine ⟨⟨rfl, rfl, fun hb => hb⟩, fun k => ?_⟩
      have hfalse : decide (i ≤ k ∧ k < seg_len ∧ p ∣ (k - i)) = false := by
        rw [decide_eq_false_iff_not]
        rintro ⟨h1, h2, -⟩
        omega
      rw [hfalse]
      simp

theorem mark_non_primes_spec (seg : BitSet) (p low seg_len : Nat)
    (hp : 1 ≤ p) (hcap : seg_len ≤ 64 * seg.words.length) :
    ((mark_non_primes seg p low seg_len).words.length = seg.words.length ∧
      (mark_non_primes seg p low seg_len).last_word_set = seg.last_word_set ∧
      (wordsBounded seg → wordsBounded (mark_non_primes seg p low seg_len))) ∧
    ∀ k, (mark_non_primes seg p low seg_len).get k =
      (seg.get k && !decide (k < seg_len ∧ p ∣ (low + k))) := by
  have hdvd_pm : p ∣ low / p * p := Nat.dvd_mul_left p (low / p)
  set pm := if low / p * p < low then low / p * p + p else low / p * p with hpm
  have hdvd2 : p ∣ pm := by
    rw [hpm]
    split
    · exact Nat.dvd_add hdvd_pm (Nat.dvd_refl p)
    · exact hdvd_pm
  have hge : low ≤ pm := by
    rw [hpm]
    split
    · have h1 := Nat.mod_lt low (show 0 < p by omega)
      have h2 := Nat.div_add_mod low p
      have h3 : low / p * p = p * (low / p) := Nat.mul_comm _ _
      omega
    · omega
  have hlt_p : pm < low + p := by
    have h1 : low / p * p ≤ low := Nat.div_mul_le_self low p
    rw [hpm]
    split
    · omega
    · omega
  have hmark : mark_non_primes seg p low seg_len = markSegAux seg_len seg (pm - low) p seg_len := by
    rw [mark_non_primes, hpm]
  have hfuel : seg_len ≤ (pm - low) + seg_len * p := by
    have : seg_len ≤ seg_len * p := Nat.le_mul_of_pos_right seg_len (by omega)
    omega
  obtain ⟨hpres, hget⟩ := markSegAux_spec seg_len seg (pm - low) p seg_len hp hfuel hcap
  rw [hmark]
  refine ⟨hpres, fun k => ?_⟩
  rw [hget k]
  have hiff : ((pm - low) ≤ k ∧ k < seg_len ∧ p ∣ (k - (pm - low))) ↔
      (k < seg_len ∧ p ∣ (low + k)) := by
    constructor
    · rintro ⟨h1, h2, hdvd⟩
      refine ⟨h2, ?_⟩
      have heq : low + k = (k - (pm - low)) + pm := by omega
      rw [heq]
      exact Nat.dvd_add hdvd hdvd2
    · rintro ⟨h2, hdvd⟩
      have hge2 : pm ≤ low + k := by
        by_contra hcon
        push_neg at hcon
        have hdlt : low + k < pm := hcon
        have hsub : p ∣ pm - (low + k) := Nat.dvd_sub' hdvd2 hdvd
        rcases Nat.eq_zero_or_pos (pm - (low + k)) with h0 | hpos
        · omega
        · have := Nat.le_of_dvd hpos hsub
          omega
      refine ⟨by omega, by omega, ?_⟩
      have heq : k - (pm - low) = (low + k) - pm := by omega
      rw [heq]
      exact Nat.dvd_sub' hdvd hdvd2
  rw [show decide ((pm - low) ≤ k ∧ k < seg_len ∧ p ∣ (k - (pm - low))) =
      decide (k < seg_len ∧ p ∣ (low + k)) by
    rw [decide_eq_decide]
    exact hiff]

/-! ### `for_each_max` folds `mark_non_primes` over the primes up to the bound -/

theorem for_each_max_mark (primes : List Nat) :
    ∀ (max low seg_len : Nat) (seg : BitSet),
      primes.Sorted (· < ·) → (∀ q ∈ primes, 1 ≤ q) →
      seg_len ≤ 64 * seg.words.length →
      ((for_each_max primes max
          (fun p s => mark_non_primes s p low seg_len) seg).words.length = seg.words.length ∧
        (for_each_max primes max
          (fun p s => mark_non_primes s p low seg_len) seg).last_word_set = seg.last_word_set ∧
        (wordsBounded seg → wordsBounded (for_each_max primes max
          (fun p s => mark_non_primes s p low seg_len) seg))) ∧
      ∀ k, (for_each_max primes max
          (fun p s => mark_non_primes s p low seg_len) seg).get k =
        (seg.get k && !decide (∃ q, q ∈ primes ∧ q ≤ max ∧ q ∣ (low + k) ∧ k < seg_len)) := by
  induction primes with
  | nil =>
    intro max low seg_len seg _ _ _
    refine ⟨⟨rfl, rfl, fun hb => hb⟩, fun k => ?_⟩
    have hfalse : decide (∃ q, q ∈ ([] : List Nat) ∧ q ≤ max ∧ q ∣ (low + k) ∧ k < seg_len)
        = false := by
      rw [decide_eq_false_iff_not]
      rintro ⟨q, hq, -⟩
      cases hq
    rw [hfalse]
    simp [for_each_max]
  | cons p rest ih =>
    intro max low seg_len seg hsort hone hcap
    have hstep : for_each_max (p :: rest) max
        (fun p s => mark_non_primes s p low seg_len) seg =
        if p > max then seg
        else for_each_max rest max (fun p s => mark_non_primes s p low seg_len)
          (mark_non_primes seg p low seg_len) := rfl
    by_cases hgt : p > max
    · rw [hstep, if_pos hgt]
      refine ⟨⟨rfl, rfl, fun hb => hb⟩, fun k => ?_⟩
      have hfalse : decide (∃ q, q ∈ p :: rest ∧ q ≤ max ∧ q ∣ (low + k) ∧ k < seg_len)
          = false := by
        rw [decide_eq_false_iff_not]
        rintro ⟨q, hq, hle, -⟩
        rcases List.mem_cons.mp hq with rfl | hq
        · omega
        · have := (List.pairwise_cons.mp hsort).1 q hq
          omega
      rw [hfalse]
      simp
    · rw [hstep, if_neg hgt]
      obtain ⟨hmpres, hmget⟩ := mark_non_primes_spec seg p low seg_len
        (hone p (List.mem_cons_self p rest)) hcap
      obtain ⟨hml, hmlast, hmb⟩ := hmpres
      have hcap2 : seg_len ≤ 64 * (mark_non_primes seg p low seg_len).words.length := by
        rw [hml]
        exact hcap
      obtain ⟨⟨hl, hlast, hb⟩, hget⟩ := ih max low seg_len
        (mark_non_primes seg p low seg_len) (List.Pairwise.sublist (List.sublist_cons_self p rest) hsort)
        (fun q hq => hone q (List.mem_cons_of_mem _ hq)) hcap2
      refine ⟨⟨by rw [hl, hml], by rw [hlast, hmlast], fun hbs => hb (hmb hbs)⟩, fun k => ?_⟩
      rw [hget k, hmget k]
      have hiff : ((k < seg_len ∧ p ∣ (low + k)) ∨
          (∃ q, q ∈ rest ∧ q ≤ max ∧ q ∣ (low + k) ∧ k < seg_len)) ↔
          (∃ q, q ∈ p :: rest ∧ q ≤ max ∧ q ∣ (low + k) ∧ k < seg_len) := by
        constructor
        · rintro (⟨hk, hdvd⟩ | ⟨q, hq, hle, hdvd, hk⟩)
          · exact ⟨p, List.mem_cons_self p rest, by omega, hdvd, hk⟩
          · exact ⟨q, List.mem_cons_of_mem _ hq, hle, hdvd, hk⟩
        · rintro ⟨q, hq, hle, hdvd, hk⟩
          rcases List.mem_cons.mp hq with rfl | hq
          · exact Or.inl ⟨hk, hdvd⟩
          · exact Or.inr ⟨q, hq, hle, hdvd, hk⟩
      rw [show decide (∃ q, q ∈ p :: rest ∧ q ≤ max ∧ q ∣ (low + k) ∧ k < seg_len) =
          (decide (k < seg_len ∧ p ∣ (low + k)) ||
            decide (∃ q, q ∈ rest ∧ q ≤ max ∧ q ∣ (low + k) ∧ k < seg_len)) by
        rw [← Bool.decide_or, decide_eq_decide]
        exact hiff.symm]
      cases hd1 : decide (k < seg_len ∧ p ∣ (low + k)) <;>
        cases hd2 : decide (∃ q, q ∈ rest ∧ q ≤ max ∧ q ∣ (low + k) ∧ k < seg_len) <;> simp

/-! ### Primality over a window -/

theorem window_prime_iff (m max : Nat) (hm2 : 2 ≤ m) (hsq : Nat.sqrt m ≤ max)
    (hmm : max < m) :
    (¬ ∃ q, q.Prime ∧ q ≤ max ∧ q ∣ m) ↔ m.Prime := by
  constructor
  · intro hno
    by_contra hnp
    apply hno
    refine ⟨Nat.minFac m, Nat.minFac_prime (by omega), ?_, Nat.minFac_dvd m⟩
    have hsqle : Nat.minFac m ^ 2 ≤ m := Nat.minFac_sq_le_self (by omega) hnp
    have : Nat.minFac m ≤ Nat.sqrt m := by
      rw [Nat.le_sqrt]
      rw [pow_two] at hsqle
      exact hsqle
    omega
  · rintro hp ⟨q, hqp, hqle, hqdvd⟩
    rcases (Nat.Prime.eq_one_or_self_of_dvd hp q hqdvd) with h1 | h1
    · have := hqp.two_le
      omega
    · omega

/-! ### Sentinel scans stop inside the list -/

theorem scanStops_of_mem (l : List Nat) :
    ∀ max, (∃ q ∈ l, max < q) → scanStops l max = true := by
  induction l with
  | nil =>
    rintro max ⟨q, hq, -⟩
    cases hq
  | cons p rest ih =>
    rintro max ⟨q, hq, hlt⟩
    show (if p > max then true else scanStops rest max) = true
    by_cases h : p > max
    · rw [if_pos h]
    · rw [if_neg h]
      rcases List.mem_cons.mp hq with rfl | hq
      · omega
      · exact ih max ⟨q, hq, hlt⟩

/-! ### One window of the segmented sieve -/

theorem int_sqrt_one_le {n : Nat} (h : 2 ≤ n) : 1 ≤ int_sqrt n := by
  have := int_sqrt_mono h
  have h2 : int_sqrt 2 = 1 := by decide
  omega

theorem two_mul_int_sqrt_le {n : Nat} (h : 2 ≤ n) : 2 * int_sqrt n ≤ n := by
  have h1 : 1 ≤ int_sqrt n := int_sqrt_one_le h
  have h2 : int_sqrt n * int_sqrt n ≤ n := int_sqrt_le_mul n
  rcases Nat.lt_or_ge (int_sqrt n) 2 with hs | hs
  · omega
  · nlinarith

theorem window_count (seg seg2 : BitSet) (low high seg_len n S max : Nat)
    (hS : S = int_sqrt n) (hn2 : 2 ≤ n) (hmax : max = int_sqrt high)
    (hlh : low + seg_len = high + 1) (_hsl : 1 ≤ seg_len) (hhn : high ≤ n)
    (hlow : S + 1 ≤ low)
    (hlen : seg.words.length = wordsFor seg_len)
    (hlast : seg.last_word_set = lastWordSetFor seg_len)
    (hb : wordsBounded seg)
    (hget : ∀ k, seg.get k = decide (k < seg_len))
    (hseg2 : seg2 = for_each_max (collect_primes (Eratosthenes.gen_table S) S) max
      (fun p s => mark_non_primes s p low seg_len) seg) :
    (seg2.words.length = wordsFor seg_len ∧
      seg2.last_word_set = lastWordSetFor seg_len ∧ wordsBounded seg2) ∧
    seg2.count_ones = Nat.count (fun k => Nat.Prime (low + k)) seg_len := by
  have hS1 : 1 ≤ S := hS ▸ int_sqrt_one_le hn2
  have hmaxS : max ≤ S := by
    rw [hmax, hS]
    exact int_sqrt_mono hhn
  have hplist : collect_primes (Eratosthenes.gen_table S) S =
      (List.range (S + 1)).filter (fun p => decide (Nat.Prime p)) ++ [S + 1] := by
    rw [collect_primes, basePrimes_eq S hS1]
  have hsorted : (collect_primes (Eratosthenes.gen_table S) S).Sorted (· < ·) := by
    rw [hplist]
    rw [List.Sorted, List.pairwise_append]
    refine ⟨basePrimes_sorted S, List.pairwise_singleton _ _, ?_⟩
    intro a ha b hb'
    rcases List.mem_singleton.mp hb' with rfl
    have := (basePrimes_mem S a).mp ha
    omega
  have hone : ∀ q ∈ collect_primes (Eratosthenes.gen_table S) S, 1 ≤ q := by
    intro q hq
    rw [hplist] at hq
    rcases List.mem_append.mp hq with hq | hq
    · have := ((basePrimes_mem S q).mp hq).2.two_le
      omega
    · rcases List.mem_singleton.mp hq with rfl
      omega
  have hcap : seg_len ≤ 64 * seg.words.length := by
    rw [hlen]
    exact le_64_wordsFor seg_len
  obtain ⟨⟨hl, hla, hbp⟩, hget2⟩ := for_each_max_mark
    (collect_primes (Eratosthenes.gen_table S) S) max low seg_len seg hsorted hone hcap
  rw [← hseg2] at hl hla hbp hget2
  have hget2' : ∀ k, seg2.get k = decide (k < seg_len ∧ (low + k).Prime) := by
    intro k
    rw [hget2 k, hget k, ← decide_not, ← Bool.decide_and, decide_eq_decide]
    constructor
    · rintro ⟨hk, hno⟩
      refine ⟨hk, ?_⟩
      rw [← window_prime_iff (low + k) max (by omega) ?_ (by omega)]
      · rintro ⟨q, hqp, hqle, hqdvd⟩
        apply hno
        refine ⟨q, ?_, hqle, hqdvd, hk⟩
        rw [hplist]
        apply List.mem_append.mpr
        left
        exact (basePrimes_mem S q).mpr ⟨by omega, hqp⟩
      · have hmh : low + k ≤ high := by omega
        rw [hmax, int_sqrt_eq_sqrt]
        exact Nat.sqrt_le_sqrt hmh
    · rintro ⟨hk, hp⟩
      refine ⟨hk, ?_⟩
      rintro ⟨q, hqmem, hqle, hqdvd, -⟩
      have hqp : q.Prime := by
        rw [hplist] at hqmem
        rcases List.mem_append.mp hqmem with hq | hq
        · exact ((basePrimes_mem S q).mp hq).2
        · rcases List.mem_singleton.mp hq with rfl
          omega
      have := window_prime_iff (low + k) max (by omega) (by
        have hmh : low + k ≤ high := by omega
        rw [hmax, int_sqrt_eq_sqrt]
        exact Nat.sqrt_le_sqrt hmh) (by omega)
      exact (this.mpr hp) ⟨q, hqp, hqle, hqdvd⟩
  refine ⟨⟨by rw [hl, hlen], by rw [hla, hlast], hbp hb⟩, ?_⟩
  rw [BitSet.count_ones_spec _ (hbp hb), hl, hlen]
  have hcut : (List.range (64 * wordsFor seg_len)).filter (fun i => seg2.get i) =
      (List.range seg_len).filter (fun i => seg2.get i) := by
    apply filter_range_cut _ seg_len _ (le_64_wordsFor seg_len)
    intro i hi
    rw [hget2' i, decide_eq_false_iff_not]
    rintro ⟨h, -⟩
    omega
  have hcongr : (List.range seg_len).filter (fun i => seg2.get i) =
      (List.range seg_len).filter (fun i => decide ((low + i).Prime)) := by
    apply List.filter_congr
    intro a ha
    rw [hget2' a, decide_eq_decide]
    have := List.mem_range.mp ha
    constructor
    · rintro ⟨-, hp⟩
      exact hp
    · intro hp
      exact ⟨this, hp⟩
  rw [hcut, hcongr, Nat.count, List.countP_eq_length_filter]

/-! ### The window loop of the segmented sieve -/

theorem primeCount_pred_add (low seg_len : Nat) (h1 : 1 ≤ low) :
    primeCount (low - 1) + Nat.count (fun k => Nat.Prime (low + k)) seg_len =
      primeCount (low + seg_len - 1) := by
  unfold primeCount
  have h2 : low - 1 + 1 = low := by omega
  have h3 : low + seg_len - 1 + 1 = low + seg_len := by omega
  rw [h2, h3, Nat.count_add]

theorem segLoop_correct (fuel : Nat) :
    ∀ (res : Nat) (seg : BitSet) (low high seg_len n S : Nat),
      S = int_sqrt n → 2 ≤ n →
      low + seg_len = high + 1 → 1 ≤ seg_len → high ≤ n → S + 1 ≤ low →
      n + 2 ≤ low + fuel →
      seg.words.length = wordsFor seg_len →
      seg.last_word_set = lastWordSetFor seg_len →
      wordsBounded seg →
      (∀ k, seg.get k = decide (k < seg_len)) →
      res = primeCount (low - 1) →
      segLoop fuel res seg (collect_primes (Eratosthenes.gen_table S) S) low high seg_len n
        = primeCount n := by
  induction fuel with
  | zero =>
    intro res seg low high seg_len n S hS hn2 hlh hsl hhn hlow hfuel _ _ _ _ _
    omega
  | succ fuel ih =>
    intro res seg low high seg_len n S hS hn2 hlh hsl hhn hlow hfuel hlen hlast hb hget hres
    set primes := collect_primes (Eratosthenes.gen_table S) S with hprimes
    set seg2 := for_each_max primes (int_sqrt high)
      (fun p s => mark_non_primes s p low seg_len) seg with hseg2
    obtain ⟨⟨h2len, h2last, h2b⟩, h2count⟩ := window_count seg seg2 low high seg_len n S
      (int_sqrt high) hS hn2 rfl hlh hsl hhn hlow hlen hlast hb hget (by rw [hseg2, hprimes])
    have hres2 : res + seg2.count_ones = primeCount high := by
      rw [hres, h2count, primeCount_pred_add low seg_len (by omega)]
      have : low + seg_len - 1 = high := by omega
      rw [this]
    have hstep : segLoop (fuel + 1) res seg primes low high seg_len n =
        if high + 1 > n then res + seg2.count_ones
        else if high + seg_len > n then
          segLoop fuel (res + seg2.count_ones)
            ((seg2.truncate (n - (high + 1) + 1)).set_all) primes (high + 1) n
            (n - (high + 1) + 1) n
        else
          segLoop fuel (res + seg2.count_ones) (seg2.set_all) primes (high + 1)
            (high + seg_len) seg_len n := rfl
    by_cases hdone : high + 1 > n
    · rw [hstep, if_pos hdone, hres2]
      have : high = n := by omega
      rw [this]
    · rw [hstep, if_neg hdone]
      have hlow2 : high + 1 ≤ n := by omega
      by_cases htrunc : high + seg_len > n
      · rw [if_pos htrunc]
        set seg_len2 := n - (high + 1) + 1 with hsl2
        have hsl2pos : 1 ≤ seg_len2 := by omega
        have hsl2le : seg_len2 ≤ seg_len := by omega
        have htlen : (seg2.truncate seg_len2).words.length = wordsFor seg_len2 := by
          apply BitSet.truncate_words_length
          rw [h2len]
          exact wordsFor_mono hsl2le
        have htlast : (seg2.truncate seg_len2).last_word_set = lastWordSetFor seg_len2 :=
          BitSet.truncate_last_word_set _ _
        have htne : (seg2.truncate seg_len2).words ≠ [] := by
          intro hnil
          rw [hnil] at htlen
          unfold wordsFor at htlen
          simp at htlen
        apply ih
        · exact hS
        · exact hn2
        · omega
        · exact hsl2pos
        · exact Nat.le_refl n
        · omega
        · omega
        · rw [BitSet.set_all_words_length _ htne, htlen]
        · rw [BitSet.set_all_last_word_set, htlast]
        · exact BitSet.wordsBounded_set_all _ htlast
        · exact BitSet.get_set_all _ hsl2pos htlen htlast
        · rw [hres2]
          have : high + 1 - 1 = high := by omega
          rw [this]
      · rw [if_neg htrunc]
        have hne : seg2.words ≠ [] := by
          intro hnil
          rw [hnil] at h2len
          unfold wordsFor at h2len
          simp at h2len
        apply ih
        · exact hS
        · exact hn2
        · omega
        · exact hsl
        · omega
        · omega
        · omega
        · rw [BitSet.set_all_words_length _ hne, h2len]
        · rw [BitSet.set_all_last_word_set, h2last]
        · exact BitSet.wordsBounded_set_all _ h2last
        · exact BitSet.get_set_all _ (by omega) h2len h2last
        · rw [hres2]
          have : high + 1 - 1 = high := by omega
          rw [this]

/-! ### Full correctness of the segmented sieve -/

theorem shl_one (S : Nat) : S <<< 1 = 2 * S := by
  rw [Nat.shiftLeft_eq]
  ring

theorem segmented_prime_pi_correct (n : Nat) :
    SegmentedEratosthenes.prime_pi n = primeCount n := by
  by_cases h : n < 2
  · unfold SegmentedEratosthenes.prime_pi
    rw [if_pos h, primeCount_lt_two n h]
  · have hn2 : 2 ≤ n := by omega
    have hS1 : 1 ≤ int_sqrt n := int_sqrt_one_le hn2
    obtain ⟨⟨hlen, hlast, hb⟩, -⟩ := gen_table_spec (int_sqrt n) hS1
    have hstep : SegmentedEratosthenes.prime_pi n =
        segLoop n ((Eratosthenes.gen_table (int_sqrt n)).count_ones)
          (((Eratosthenes.gen_table (int_sqrt n)).truncate (int_sqrt n)).set_all)
          (collect_primes (Eratosthenes.gen_table (int_sqrt n)) (int_sqrt n))
          (int_sqrt n + 1) (int_sqrt n <<< 1) (int_sqrt n) n := by
      unfold SegmentedEratosthenes.prime_pi
      rw [if_neg h]
    rw [hstep]
    have htlen : ((Eratosthenes.gen_table (int_sqrt n)).truncate (int_sqrt n)).words.length
        = wordsFor (int_sqrt n) := by
      apply BitSet.truncate_words_length
      rw [hlen]
      exact wordsFor_mono (by omega)
    have htlast : ((Eratosthenes.gen_table (int_sqrt n)).truncate
        (int_sqrt n)).last_word_set = lastWordSetFor (int_sqrt n) :=
      BitSet.truncate_last_word_set _ _
    have htne : ((Eratosthenes.gen_table (int_sqrt n)).truncate (int_sqrt n)).words ≠ [] := by
      intro hnil
      rw [hnil] at htlen
      unfold wordsFor at htlen
      simp at htlen
    apply segLoop_correct n _ _ (int_sqrt n + 1) (int_sqrt n <<< 1) (int_sqrt n) n
      (int_sqrt n) rfl hn2
    · rw [shl_one]
      omega
    · omega
    · rw [shl_one]
      exact two_mul_int_sqrt_le hn2
    · omega
    · omega
    · rw [BitSet.set_all_words_length _ htne, htlen]
    · rw [BitSet.set_all_last_word_set, htlast]
    · exact BitSet.wordsBounded_set_all _ htlast
    · exact BitSet.get_set_all _ (by omega) htlen htlast
    · rw [gen_table_count _ hS1]
      have he : int_sqrt n + 1 - 1 = int_sqrt n := by omega
      rw [he]

/-! ### C1: `prime_pi` counts the primes up to `n` -/

set_option maxRecDepth 1000000

/-- C1: for every unsigned `n` up to `2^32 - 1`,
`SegmentedEratosthenes::prime_pi n` is the number of primes `≤ n`
(`Nat.count Nat.Prime (n + 1)`), and the listed known values hold. -/
theorem C1_segmented_prime_pi_counts_primes :
    (∀ n : Nat, n < 2 ^ 32 → SegmentedEratosthenes.prime_pi n = Nat.count Nat.Prime (n + 1)) ∧
    SegmentedEratosthenes.prime_pi 0 = 0 ∧
    SegmentedEratosthenes.prime_pi 1 = 0 ∧
    SegmentedEratosthenes.prime_pi 2 = 1 ∧
    SegmentedEratosthenes.prime_pi 10 = 4 ∧
    SegmentedEratosthenes.prime_pi 100 = 25 ∧
    SegmentedEratosthenes.prime_pi 1000 = 168 ∧
    SegmentedEratosthenes.prime_pi 10000 = 1229 :=
  ⟨fun n _ => segmented_prime_pi_correct n, rfl, rfl, by decide, by decide, by decide,
    by decide, by decide⟩

theorem C1_segmented_prime_pi_counts_primes_witness :
    10 < 2 ^ 32 ∧ SegmentedEratosthenes.prime_pi 10 = Nat.count Nat.Prime (10 + 1) :=
  ⟨by norm_num, C1_segmented_prime_pi_counts_primes.1 10 (by norm_num)⟩

/-! ### C2: the segmented sieve agrees with the baseline sieve -/

/-- C2: for every `n ≤ 200000` the segmented sieve and the baseline sieve
of Eratosthenes compute the same `prime_pi` value. -/
theorem C2_cross_consistency :
    ∀ n : Nat, n ≤ 200000 →
      SegmentedEratosthenes.prime_pi n = Eratosthenes.prime_pi n := by
  intro n _
  rw [segmented_prime_pi_correct, eratosthenes_prime_pi_correct]

theorem C2_cross_consistency_witness :
    100 ≤ 200000 ∧ SegmentedEratosthenes.prime_pi 100 = Eratosthenes.prime_pi 100 :=
  ⟨by norm_num, C2_cross_consistency 100 (by norm_num)⟩

/-! ### C10: `prime_pi` is monotone -/

/-- C10: `SegmentedEratosthenes::prime_pi` is monotone in its argument. -/
theorem C10_prime_pi_monotone :
    ∀ a b : Nat, a ≤ b →
      SegmentedEratosthenes.prime_pi a ≤ SegmentedEratosthenes.prime_pi b := by
  intro a b h
  rw [segmented_prime_pi_correct, segmented_prime_pi_correct]
  exact Nat.count_monotone _ (by omega)

theorem C10_prime_pi_monotone_witness :
    3 ≤ 10 ∧ SegmentedEratosthenes.prime_pi 3 ≤ SegmentedEratosthenes.prime_pi 10 :=
  ⟨by norm_num, C10_prime_pi_monotone 3 10 (by norm_num)⟩

/-! ### C5: the sentinel exceeds every scan bound -/

theorem Reach_high_le (n S : Nat) (hS : S = int_sqrt n) (h2 : 2 ≤ n) :
    ∀ low high seg_len, Reach n S low high seg_len → high ≤ n := by
  intro low high seg_len hr
  induction hr with
  | init =>
    rw [shl_one, hS]
    exact two_mul_int_sqrt_le h2
  | step_full hr h1 hnext ih => exact hnext
  | step_trunc hr h1 hnext ih => exact Nat.le_refl n

/-- C5: in `SegmentedEratosthenes::prime_pi n` (for `n ≥ 2`), every window
state reachable by the loop's own transitions has
`int_sqrt high ≤ int_sqrt n`, so the sentinel `seg_len + 1` appended by
`collect_primes` strictly exceeds every bound `for_each_max` is called
with, and every sentinel-terminated scan stops at an element of the list —
it never reads past the sentinel slot. -/
theorem C5_sentinel_bounds_scans (n : Nat) (h2 : 2 ≤ n) :
    ∀ low high seg_len, Reach n (int_sqrt n) low high seg_len →
      int_sqrt high < int_sqrt n + 1 ∧
      scanStops (collect_primes (Eratosthenes.gen_table (int_sqrt n)) (int_sqrt n))
        (int_sqrt high) = true := by
  intro low high seg_len hr
  have hhn : high ≤ n := Reach_high_le n (int_sqrt n) rfl h2 low high seg_len hr
  have hmax : int_sqrt high ≤ int_sqrt n := int_sqrt_mono hhn
  refine ⟨by omega, ?_⟩
  apply scanStops_of_mem
  refine ⟨int_sqrt n + 1, ?_, by omega⟩
  rw [collect_primes]
  exact List.mem_append.mpr (Or.inr (List.mem_singleton.mpr rfl))

theorem C5_sentinel_bounds_scans_witness :
    2 ≤ 10 ∧
    (int_sqrt (int_sqrt 10 <<< 1) < int_sqrt 10 + 1 ∧
      scanStops (collect_primes (Eratosthenes.gen_table (int_sqrt 10)) (int_sqrt 10))
        (int_sqrt (int_sqrt 10 <<< 1)) = true) :=
  ⟨by norm_num, C5_sentinel_bounds_scans 10 (by norm_num) _ _ _ Reach.init⟩

/-! ### C8: small `n` with `segLen ≤ 1` -/

/-- C8 counterexample: at `n = 2` (so `segLen = int_sqrt 2 = 1`), the
claimed `segLen + 1 > n` is false (`2 > 2` fails), and the result (1) is
not the base-table prime count (0) — the window loop does run and counts
the window `[2, 2]`. -/
theorem C8_counterexample_small_n :
    int_sqrt 2 = 1 ∧ ¬ (int_sqrt 2 + 1 > 2) ∧
    SegmentedEratosthenes.prime_pi 2 = 1 ∧
    (Eratosthenes.gen_table (int_sqrt 2)).count_ones = 0 ∧
    SegmentedEratosthenes.prime_pi 2 ≠ (Eratosthenes.gen_table (int_sqrt 2)).count_ones :=
  ⟨by decide, by decide, by decide, by decide, by decide⟩

/-- C8 amended: for `n ∈ {2, 3}`, `segLen = 1` and `segLen + 1 ≤ n`, so
post-base windows are needed and processed: the result is the base-table
count (0, there are no primes ≤ 1) plus the window counts over `[2, n]`
(here `n - 1`), and it is the correct `π(n)`. -/
theorem C8_small_n_amended (n : Nat) (h : n = 2 ∨ n = 3) :
    int_sqrt n = 1 ∧ int_sqrt n + 1 ≤ n ∧
    SegmentedEratosthenes.prime_pi n =
      (Eratosthenes.gen_table (int_sqrt n)).count_ones + (n - 1) ∧
    SegmentedEratosthenes.prime_pi n = Nat.count Nat.Prime (n + 1) := by
  rcases h with rfl | rfl
  · exact ⟨by decide, by decide, by decide, segmented_prime_pi_correct 2⟩
  · exact ⟨by decide, by decide, by decide, segmented_prime_pi_correct 3⟩

theorem C8_small_n_amended_witness :
    ((2 : Nat) = 2 ∨ (2 : Nat) = 3) ∧
    (int_sqrt 2 = 1 ∧ int_sqrt 2 + 1 ≤ 2 ∧
      SegmentedEratosthenes.prime_pi 2 =
        (Eratosthenes.gen_table (int_sqrt 2)).count_ones + (2 - 1) ∧
      SegmentedEratosthenes.prime_pi 2 = Nat.count Nat.Prime (2 + 1)) :=
  ⟨Or.inl rfl, C8_small_n_amended 2 (Or.inl rfl)⟩

end RustyPrimes
